import Mathlib

/-!
# Verification of big-number.js (base 2^25 engine)

Shallow embedding of the arbitrary-precision signed integer library
`big-number.js` (the engine whose internal radix is 2^25), together with
proofs and refutations of the specification claims.

Modelling conventions:
* JS numbers that hold limb values are modelled as `Nat`; all reachable
  limb values are below the radix, and theorems carry that invariant
  (`Limbs`) explicitly where it matters.
* A `BigNumber` object is a triple of its `number` field (either a limb
  array, least significant limb first, or an error-sentinel string), its
  `sign` field, and its `rest` field.  The `rest` field stores the
  `(number, sign)` of the remainder object produced by the last division
  (`none` models the initial native value `0`); no code of the library
  ever reads the `rest` field of a stored remainder, so that inner field
  is elided.
* The JS `while` loops of the division, exponentiation and printing
  routines are embedded with an explicit iteration bound (`fuel`); every
  call site passes a bound that is provably sufficient, which keeps all
  definitions structurally recursive and hence computable by `decide`.
-/

namespace BigNum

/-- The limb radix of the engine: `var base = Math.pow(2,25);`. -/
def base : Nat := 2 ^ 25

/-- Value of a little-endian limb list. -/
def lVal : List Nat → Nat
  | [] => 0
  | d :: ds => d + base * lVal ds

/-- All limbs are below the radix (the representation invariant of every
reachable limb array). -/
def Limbs (l : List Nat) : Prop := ∀ d ∈ l, d < base

instance : DecidablePred Limbs := fun l => List.decidableBAll _ l

/-- Canonical form: zero is exactly `[0]`, otherwise the most significant
limb is nonzero. -/
def Canon (l : List Nat) : Prop := l = [0] ∨ (l ≠ [] ∧ l.getLast? ≠ some 0)

instance : DecidablePred Canon := fun _ => by unfold Canon; infer_instance

/-- Carry propagation: the tail of the `_add` loop once both operands are
exhausted (`for (...; index < length || remainder > 0; ...)`), and also the
limb extraction loop of the native-number constructor
(`while (initialNumber>0) { push(n % base); n = floor(n/base); }`).
The first argument is fuel; `r` steps to `r / base`, so fuel `r + 1` is
always enough. -/
def carryRun : Nat → Nat → List Nat
  | 0, _ => []
  | _ + 1, 0 => []
  | f + 1, r + 1 => (r + 1) % base :: carryRun f ((r + 1) / base)

/-- The `index ≥ a.length` phase of the `_add` loop: remaining limbs of the
longer operand `b` are combined with the running carry. -/
def addTail : List Nat → Nat → List Nat
  | [], r => carryRun (r + 1) r
  | b :: bs, r => (b + r) % base :: addTail bs ((b + r) / base)

/-- `BigNumber._add`'s loop over limb arrays `a`, `b` with carry `r`:
`a.number[index] = (remainder += (a.number[index] || 0) + (b.number[index] || 0)) % base;
 remainder = Math.floor(remainder / base);`. -/
def addLoop : List Nat → List Nat → Nat → List Nat
  | [], bs, r => addTail bs r
  | a :: as, bs, r =>
    (a + bs.headD 0 + r) % base :: addLoop as bs.tail ((a + bs.headD 0 + r) / base)

/-- `BigNumber._subtract`'s loop (callers guarantee `a ≥ b`):
`a.number[index] -= (b.number[index] || 0) + remainder;
 a.number[index] += (remainder = (a.number[index] < 0) ? 1 : 0) * base;`. -/
def subLoop : List Nat → List Nat → Nat → List Nat
  | [], _, _ => []
  | a :: as, bs, brw =>
    if a < bs.headD 0 + brw then
      (a + base - (bs.headD 0 + brw)) :: subLoop as bs.tail 1
    else
      (a - (bs.headD 0 + brw)) :: subLoop as bs.tail 0

/-- The trailing-zero trim performed at the end of `_subtract` and `divide`:
count most-significant zero limbs (never removing index 0) and `splice` them
off. -/
def trimEnd (l : List Nat) : List Nat :=
  match l with
  | [] => []
  | x :: xs => x :: ((xs.reverse.dropWhile (· == 0)).reverse)

/-- The digit-by-digit scan of `_compare` for equal-length limb arrays,
most significant limb first (arguments are the reversed limb arrays);
returns the comparison of the magnitudes as `1`, `-1` or `0` (the caller
multiplies by the common sign). -/
def cmpRev : List Nat → List Nat → Int
  | [], _ => 0
  | a :: as, bs =>
    if a > bs.headD 0 then 1
    else if a < bs.headD 0 then -1
    else cmpRev as bs.tail

/-- Tail of `multiply`'s inner loop once the second operand's limbs are
exhausted but a carry remains: folds the carry into the existing
accumulator limbs. -/
def addCarry : List Nat → Nat → List Nat
  | l, 0 => l
  | [], r + 1 => carryRun (r + 2) (r + 1)
  | c :: cs, r + 1 => (c + (r + 1)) % base :: addCarry cs ((c + (r + 1)) / base)

/-- `multiply`'s inner loop for one limb `x` of the receiver: accumulates
`x * b` into the result slice `res` with carry `r`:
`result[i+j] = (remainder += (result[i+j] || 0) + this.number[i] * (b.number[j] || 0)) % base`. -/
def mulAdd (x : Nat) : List Nat → List Nat → Nat → List Nat
  | [], res, r => addCarry res r
  | b :: bs, res, r =>
    (r + res.headD 0 + x * b) % base :: mulAdd x bs res.tail ((r + res.headD 0 + x * b) / base)

/-- `multiply`'s outer loop: one `mulAdd` pass per receiver limb, each pass
one position further left (the finished least-significant limb is peeled
off before recursing). -/
def mulLoop : List Nat → List Nat → List Nat → List Nat
  | [], _, res => res
  | a :: as, bs, res =>
    (mulAdd a bs res 0).headD 0 :: mulLoop as bs (mulAdd a bs res 0).tail

/-- `isZero`'s scan over a limb array. -/
def isZeroL (l : List Nat) : Bool := l.all (· == 0)

/-- Most-significant-first value of a limb list (used to reason about the
top-down scans of `_compare` and `divide`). -/
def vM : List Nat → Nat
  | [] => 0
  | x :: xs => x * base ^ xs.length + vM xs

/-- The `number` field of a BigNumber: either a limb array or one of the
error-sentinel strings. -/
inductive Numb where
  | limbs (l : List Nat)
  | err (s : String)
deriving DecidableEq

/-- `errors["invalid"]`. -/
def invalidMsg : String := "Invalid Number"

/-- `errors["division by zero"]`. -/
def divZeroMsg : String := "Invalid Number - Division By Zero"

/-- A BigNumber object: its `number`, `sign` and `rest` fields.  The `rest`
field stores the `(number, sign)` of the remainder BigNumber produced by the
last division; `none` models the initial native value `0`. -/
structure BN where
  number : Numb
  sign : Int
  rest : Option (Numb × Int)
deriving DecidableEq

/-- Magnitude of a `number` field (errors carry no magnitude). -/
def numbVal : Numb → Nat
  | .limbs l => lVal l
  | .err _ => 0

/-- Signed integer value of a BigNumber. -/
def bnVal (v : BN) : Int := v.sign * (numbVal v.number : Int)

/-- Signed integer value held in a `rest` field (`0` when the field still
holds the initial native zero). -/
def restVal : Option (Numb × Int) → Int
  | none => 0
  | some p => p.2 * (numbVal p.1 : Int)

/-- `this.number.length` (for an error state, the length of the sentinel
string, exactly as JS indexes it). -/
def numbLen : Numb → Nat
  | .limbs l => l.length
  | .err s => s.length

/-- Limb array produced by the native-number branch of the constructor:
zero is falsy and yields `[0]`; a positive value goes through the
`while (n>0) { push(n % base); n = floor(n/base) }` loop. -/
def natLimbs (n : Nat) : List Nat := if n = 0 then [0] else carryRun (n + 1) n

/-- `BigNumber(n)` for a native non-negative number `n`. -/
def bnOfNat (n : Nat) : BN := ⟨.limbs (natLimbs n), 1, none⟩

/-- `BigNumber(0)` / `BigNumber()`. -/
def bnZero : BN := ⟨.limbs [0], 1, none⟩

/-- The copy constructor branch `BigNumber(instance)`: `number.slice()`,
same `sign`, same `rest` — a by-value copy, which in a functional embedding
is the identity. -/
def bnFromBN (v : BN) : BN := ⟨v.number, v.sign, v.rest⟩

/-- `isZero()`: scans `this.number`; for an error state the entries are
characters, never strictly equal to `0`, so only an empty string would pass. -/
def bnIsZero (v : BN) : Bool :=
  match v.number with
  | .limbs l => isZeroL l
  | .err s => s.length == 0

/-- The `_compare` character scan for two equal-length error strings
(JS compares the single-character strings positionally, from the last
index down). -/
def cmpCharsRev : List Char → List Char → Int
  | [], _ => 0
  | c :: cs, ds =>
    if c > ds.headD (Char.ofNat 0) then 1
    else if c < ds.headD (Char.ofNat 0) then -1
    else cmpCharsRev cs ds.tail

/-- The per-index scan of `_compare` on two equal-length `number` fields.
When one side is a limb array and the other an error string, every JS
comparison `limb > char` / `limb < char` coerces the character to `NaN` and
is false, so the loop falls through and yields `0`. -/
def cmpNumb : Numb → Numb → Int
  | .limbs a, .limbs b => cmpRev a.reverse b.reverse
  | .err a, .err b => cmpCharsRev a.data.reverse b.data.reverse
  | _, _ => 0

/-- `_compare(number)`: sign test, then length test, then the digit scan
(the scan returns `this.sign`, `this.sign * (-1)` or `0`). -/
def bnCompare (a b : BN) : Int :=
  if a.sign ≠ b.sign then a.sign
  else if numbLen a.number > numbLen b.number then a.sign
  else if numbLen a.number < numbLen b.number then a.sign * (-1)
  else a.sign * cmpNumb a.number b.number

/-- `BigNumber._add(a, b)` on the `number` fields.  With an error-string
operand JS fills the receiver's array with `NaN`s (or throws when the
receiver itself holds a string); the resulting array is garbage but is *not*
an error sentinel — we model it as an unspecified limb array.  No theorem
below evaluates that branch. -/
def numbAdd : Numb → Numb → Numb
  | .limbs a, .limbs b => .limbs (addLoop a b 0)
  | _, _ => .limbs []

/-- `BigNumber._subtract(a, b)` on the `number` fields (loop followed by the
trailing-zero splice); same modelling note as `numbAdd` for error operands. -/
def numbSub : Numb → Numb → Numb
  | .limbs a, .limbs b => .limbs (trimEnd (subLoop a b 0))
  | _, _ => .limbs []

/-- `multiply`'s limb loops on the `number` fields; same modelling note as
`numbAdd` for error operands. -/
def numbMul : Numb → Numb → Numb
  | .limbs a, .limbs b => .limbs (mulLoop a b [])
  | _, _ => .limbs []

/-- The local `abs(number)` helper: a copy with `sign = 1`. -/
def bnAbs (v : BN) : BN := { v with sign := 1 }

/-- `subtract(number)` (its return value, which is also the receiver's final
state on every path of `subtract`): opposite signs add magnitudes; equal
signs compare first (`this.sign = this.lt(bigNumber) ? -1 : 1`), then
subtract the smaller magnitude from the larger. -/
def bnSubtract (a b : BN) : BN :=
  if a.sign ≠ b.sign then { a with number := numbAdd a.number b.number }
  else
    let sgn : Int := if bnCompare a b < 0 then -1 else 1
    let a' : BN := { a with sign := sgn }
    if bnCompare (bnAbs a') (bnAbs b) < 0 then { a' with number := numbSub b.number a'.number }
    else { a' with number := numbSub a'.number b.number }

/-- `add(number)`'s return value: opposite signs route through `subtract`
(`this.minus(bigNumber)` or `bigNumber.minus(this)` after forcing the other
operand positive); equal signs run `_add`. -/
def bnAdd (a b : BN) : BN :=
  if a.sign ≠ b.sign then
    if a.sign > 0 then bnSubtract a { b with sign := 1 }
    else bnSubtract b { a with sign := 1 }
  else { a with number := numbAdd a.number b.number }

/-- The *receiver's* state after `add(number)`: it differs from the return
value only in the `this.sign < 0` branch, where JS returns the mutated copy
`bigNumber` while the receiver has merely had its sign set to `1` (its limbs
are read, not written, by `bigNumber.minus(this)`, which copies its
argument). -/
def bnAddRecv (a b : BN) : BN :=
  if a.sign ≠ b.sign then
    if a.sign > 0 then bnSubtract a { b with sign := 1 }
    else { a with sign := 1 }
  else { a with number := numbAdd a.number b.number }

/-- `multiply(number)`'s return value: a fresh zero when either operand is
zero, otherwise sign product and the double accumulation loop. -/
def bnMultiply (a b : BN) : BN :=
  if bnIsZero a || bnIsZero b then bnZero
  else { a with sign := a.sign * b.sign, number := numbMul a.number b.number }

/-- The *receiver's* state after `multiply(number)`: in the zero-operand
case JS returns a fresh `BigNumber(0)` and leaves the receiver untouched
(call sites that discard the return value, such as `rest.multiply(...)` in
`divide` and the squaring steps in `power`, therefore keep the old value). -/
def bnMultiplyRecv (a b : BN) : BN :=
  if bnIsZero a || bnIsZero b then a else bnMultiply a b

/-- The prime factorisation of `base` computed once by the initialisation
loop (`while (factorisingbase>1) { if (factorisingbase%lastprime==0) ... }`).
For `base = 2^25` the loop stays on the prime `2` throughout and pushes it
25 times, so the computed table is 25 copies of `2`. -/
def factors : List Nat := List.replicate 25 2

/-- The inner `while (bigNumber.lte(rest))` loop of `divide`'s generic path:
each pass adds the current sub-divisor into the quotient limb and runs
`rest.subtract(bigNumber)`.  `fuel` bounds the iterations; callers pass
`lVal rest + 1`, which is enough because each subtraction removes the
divisor's positive magnitude from `rest`. -/
def bnWhileSub : Nat → BN → BN → Nat → Nat → Nat × BN
  | 0, _, rest, q, _ => (q, rest)
  | f + 1, b, rest, q, step =>
    if bnCompare b rest ≤ 0 then bnWhileSub f b (bnSubtract rest b) (q + step) step
    else (q, rest)

/-- `divide`'s per-limb factor loop (generic path): for each factor `f`,
`divisor /= f; rest.multiply(f); rest.add(floor(digit/divisor));
digit %= divisor;` followed by the subtraction loop.  The `multiply` and
`add` calls discard their return values, so the receiver-state versions of
those operations are used. -/
def facLoop : List Nat → Nat → Nat → BN → BN → Nat → Nat × BN
  | [], _, _, _, rest, q => (q, rest)
  | f :: fs, digit, divisor, b, rest, q =>
    let divisor' := divisor / f
    let rest1 := bnMultiplyRecv rest (bnOfNat f)
    let rest2 := bnAddRecv rest1 (bnOfNat (digit / divisor'))
    let p := bnWhileSub (numbVal rest2.number + 1) b rest2 q divisor'
    facLoop fs (digit % divisor') divisor' b p.2 p.1

/-- `divide`'s generic path over the dividend limbs, most significant limb
first; yields the quotient limbs (most significant first) and the final
`rest` object. -/
def genLoop (b : BN) : List Nat → BN → List Nat × BN
  | [], rest => ([], rest)
  | x :: ms, rest =>
    let p := facLoop factors x base b rest 0
    let next := genLoop b ms p.2
    (p.1 :: next.1, next.2)

/-- `divide`'s native fast path over the dividend limbs, most significant
limb first, with native running remainder `r`:
`nativerest = nativerest*base + limb; q = floor(nativerest/d);
nativerest -= q*d;`. -/
def nativeLoop (d : Nat) : List Nat → Nat → List Nat × Nat
  | [], r => ([], r)
  | x :: ms, r =>
    let q := (r * base + x) / d
    let next := nativeLoop d ms (r * base + x - q * d)
    (q :: next.1, next.2)

/-- `divide(number)`.  Order of operations as in the source: zero-divisor
check (error sentinel into `this.number`, sign and rest untouched),
zero-dividend check (fresh `BigNumber(0)`), sign product, skip for division
by one (rest untouched), then the native path when the divisor fits one limb
(`nativebigNumber` truthy) and the factor-decomposition path otherwise. -/
def bnDivide (a b : BN) : BN :=
  if bnIsZero b then { a with number := .err divZeroMsg }
  else if bnIsZero a then bnZero
  else
    let s := a.sign * b.sign
    let skip : Bool :=
      match b.number with
      | .limbs bl => bl.length == 1 && bl.headD 0 == 1
      | .err _ => false
    if skip then { a with sign := s }
    else
      match a.number, b.number with
      | .limbs al, .limbs bl =>
        let native := if bl.length == 1 then bl.headD 0 else 0
        if native ≠ 0 then
          let p := nativeLoop native al.reverse 0
          ⟨.limbs (trimEnd p.1.reverse), s, some (.limbs (natLimbs p.2), 1)⟩
        else
          let p := genLoop ⟨.limbs bl, 1, b.rest⟩ al.reverse bnZero
          ⟨.limbs (trimEnd p.1.reverse), s, some (p.2.number, p.2.sign)⟩
      | _, _ =>
        -- With an error-string operand the JS loops produce NaN garbage
        -- limbs (not an error sentinel); unreachable in every theorem below.
        ⟨.limbs [], s, a.rest⟩

/-- `mod(number)`: `return this.divide(number).rest;`. -/
def bnMod (a b : BN) : Option (Numb × Int) := (bnDivide a b).rest

/-- `power`'s square-and-multiply loop.  The `multiply` return values are
discarded (`this.multiply(bigNumber); number--;`), so receiver-state
multiplication is used.  `fuel` bounds the iterations; `n` strictly
decreases every pass, so `n + 1` is always enough. -/
def powLoop : Nat → Nat → BN → BN → BN
  | 0, _, acc, _ => acc
  | f + 1, n, acc, bg =>
    if n = 0 then acc
    else if n % 2 = 1 then powLoop f (n - 1) (bnMultiplyRecv acc bg) bg
    else powLoop f (n / 2) acc (bnMultiplyRecv bg bg)

/-- `power(number)` for a native non-negative exponent: `0` yields a fresh
`BigNumber(1)`, `1` returns the receiver, otherwise
`bigNumber = BigNumber(this); this.number = [1];` (sign and rest retained!)
followed by the loop. -/
def bnPower (a : BN) (n : Nat) : BN :=
  if n = 0 then bnOfNat 1
  else if n = 1 then a
  else powLoop (n + 1) n { a with number := .limbs [1] } a

/-- `_singleDigit()`'s accumulation loop (`digit += multiplier*limb;
multiplier *= base;` while `digit < 10`). -/
def sdLoop : List Nat → Nat → Nat → Nat
  | [], d, _ => d
  | x :: xs, d, m => if d < 10 then sdLoop xs (d + m * x) (m * base) else d

/-- `_singleDigit()`: the decimal digit held by a remainder object assumed
to be below 10 (used by `toString`), empty string otherwise. -/
def singleDigitStr (n : Numb) : String :=
  match n with
  | .limbs l => if sdLoop l 0 1 < 10 then Nat.repr (sdLoop l 0 1) else ""
  | .err _ => ""

/-- `toString`'s digit-extraction loop
(`while (!clone.isZero()) { str = clone.div(ten).rest._singleDigit() + str }`):
each pass replaces the clone by its quotient under division by ten and
prepends the single decimal digit left in the remainder.  The clone's
`rest` field is irrelevant to the division (the divisor is never 1) and is
elided.  `fuel` bounds the iterations; the clone's value strictly decreases,
so `lVal l + 1` is always enough. -/
def toStrLoop : Nat → List Nat → String
  | 0, _ => ""
  | f + 1, l =>
    if isZeroL l then ""
    else
      let d := bnDivide ⟨.limbs l, 1, none⟩ (bnOfNat 10)
      toStrLoop f (match d.number with | .limbs q => q | .err _ => []) ++
        (match d.rest with | some r => singleDigitStr r.1 | none => "")

/-- `toString()`: error states return the sentinel verbatim; otherwise the
absolute value is printed by repeated division by ten, an empty digit string
becomes `"0"`, and a `-` is prepended iff `this.sign > 0` fails. -/
def bnToString (v : BN) : String :=
  match v.number with
  | .err s => s
  | .limbs l =>
    let str := toStrLoop (lVal l + 1) l
    let str2 := if str = "" then "0" else str
    if v.sign > 0 then str2 else "-" ++ str2

/-- `parseInt` on a single decimal digit character. -/
def parseDigit (c : Char) : Nat := c.toNat - 48

/-- The constructor's digit loop over a string's characters, last character
first: `addDigit` tests the parsed character, adds
`BigNumber(digit).mult(multipleoftens)` into the accumulator (whose sign is
still `1` at this point) and multiplies `multipleoftens` by ten, or stores
the invalid sentinel and stops. -/
def createLoop : List Char → BN → BN → BN
  | [], acc, _ => acc
  | c :: cs, acc, mot =>
    if c.isDigit then
      createLoop cs (bnAddRecv acc (bnMultiply (bnOfNat (parseDigit c)) mot))
        (bnMultiplyRecv mot (bnOfNat 10))
    else { acc with number := .err invalidMsg }

/-- `BigNumber(s)` for a string `s`: the empty string is falsy and yields
zero; otherwise an optional leading sign character is stripped, the digit
loop runs from the last character backwards starting from `this.number = []`
and `multipleoftens = BigNumber(1)`, and the recorded sign is applied only
if the loop completes (`this.sign = sign` is unreachable after the invalid
early return). -/
def createStr (s : String) : BN :=
  if s = "" then bnZero
  else
    let neg : Bool := s.data.headD ' ' == '-'
    let pos : Bool := s.data.headD ' ' == '+'
    let t : List Char := if neg || pos then s.data.tail else s.data
    let acc := createLoop t.reverse ⟨.limbs [], 1, none⟩ (bnOfNat 1)
    match acc.number with
    | .err e => { acc with number := .err e }
    | .limbs l => { acc with number := .limbs l, sign := if neg then -1 else 1 }

/-- One element of an array passed to the constructor: the sign tokens
`"+"`/`"-"`, a number, or any other (non-digit) value. -/
inductive AElem where
  | plusTok
  | minusTok
  | num (n : Nat)
  | junk
deriving DecidableEq

/-- `testDigit` on an array element: the regular expression `/^\d$/` matches
exactly the values that print as one decimal digit. -/
def aDigit : AElem → Option Nat
  | .num n => if n ≤ 9 then some n else none
  | _ => none

/-- The constructor's digit loop over array elements, last element first
(same structure as the string loop). -/
def createArrLoop : List AElem → BN → BN → BN
  | [], acc, _ => acc
  | e :: es, acc, mot =>
    match aDigit e with
    | some d =>
      createArrLoop es (bnAddRecv acc (bnMultiply (bnOfNat d) mot))
        (bnMultiplyRecv mot (bnOfNat 10))
    | none => { acc with number := .err invalidMsg }

/-- `BigNumber(arr)` for an array: a leading `"+"`/`"-"` token sets the sign
and is removed from the *caller's* array by `initialNumber.shift(0)`; the
digit loop then runs over the remaining elements.  Returns the constructed
value together with the final state of the input array (the observable
mutation). -/
def createArr (arr : List AElem) : BN × List AElem :=
  let sgn : Int :=
    match arr with
    | .minusTok :: _ => -1
    | _ => 1
  let arr' : List AElem :=
    match arr with
    | .minusTok :: rest => rest
    | .plusTok :: rest => rest
    | _ => arr
  let acc := createArrLoop arr'.reverse ⟨.limbs [], 1, none⟩ (bnOfNat 1)
  (match acc.number with
   | .err e => { acc with number := .err e }
   | .limbs l => { acc with number := .limbs l, sign := sgn }, arr')

/-- `add` with an optional argument: `typeof number === 'undefined'` returns
the receiver. -/
def bnAddArg (a : BN) : Option BN → Option BN
  | none => some a
  | some b => some (bnAdd a b)

/-- `subtract` with an optional argument: an omitted argument returns the
receiver. -/
def bnSubtractArg (a : BN) : Option BN → Option BN
  | none => some a
  | some b => some (bnSubtract a b)

/-- `multiply` with an optional argument: an omitted argument returns the
receiver. -/
def bnMultiplyArg (a : BN) : Option BN → Option BN
  | none => some a
  | some b => some (bnMultiply a b)

/-- `divide` with an optional argument: an omitted argument returns the
receiver. -/
def bnDivideArg (a : BN) : Option BN → Option BN
  | none => some a
  | some b => some (bnDivide a b)

/-- `power` with an optional argument: an omitted argument hits
`if (typeof number === 'undefined') return;` and yields `undefined`
(no BigNumber at all), modelled as `none`. -/
def bnPowerArg (a : BN) : Option Nat → Option BN
  | none => none
  | some n => some (bnPower a n)

/-- `_compare` with an optional argument: an omitted argument returns `0`. -/
def bnCompareArg (a : BN) : Option BN → Int
  | none => 0
  | some b => bnCompare a b

/-- Decimal digit string of a natural number, empty for zero (the shape
produced by `toString`'s division loop). -/
def decStr : Nat → String
  | 0 => ""
  | n + 1 => decStr ((n + 1) / 10) ++ Nat.repr ((n + 1) % 10)
decreasing_by exact Nat.div_lt_self (Nat.succ_pos n) (by norm_num)

/-- Modelled from the spec: the sign-normalised form of a decimal string
(`toDecimalString(create(s)) == normalize(s)`, spec section 8): drop an
optional leading sign, drop leading zeros, render zero as `"0"` without a
sign, and otherwise prepend `-` exactly when the original string began with
`'-'`. -/
def specNormalize (s : String) : String :=
  let t : List Char :=
    if s.data.headD ' ' == '-' || s.data.headD ' ' == '+' then s.data.tail else s.data
  let digits := t.dropWhile (· == '0')
  if digits = [] then "0"
  else if s.data.headD ' ' == '-' then "-" ++ String.mk digits
  else String.mk digits

/-- Modelled from the spec: "the largest power of two whose square does not
exceed the largest integer magnitude native arithmetic can represent
exactly" (spec section 3).  For a bound `m` this is `2 ^ log2 (sqrt m)`. -/
def largestPow2Sq (m : Nat) : Nat := 2 ^ Nat.log 2 (Nat.sqrt m)

/-- The largest integer magnitude IEEE-754 doubles (JS native numbers)
represent exactly: `2^53` (`Number.MAX_SAFE_INTEGER` is `2^53 - 1`). -/
def maxExactNative : Nat := 2 ^ 53

/-- A well-formed BigNumber: a numeric (non-error) state whose limb array
satisfies the representation invariant and whose sign is `±1` — the shape of
every value the library constructs. -/
def validBN (v : BN) : Bool :=
  match v.number with
  | .limbs l => decide (Limbs l) && decide (Canon l) && (v.sign == 1 || v.sign == -1)
  | .err _ => false

def ValidBN (v : BN) : Prop := validBN v = true

instance : DecidablePred ValidBN := fun _ => instDecidableEqBool _ _

/-- No trailing (most significant) zero limb; satisfied by `[]` and violated
by `[0]` (canonical lists are `[0]` or nonempty lists with this property). -/
def NoTrailZ (l : List Nat) : Prop := l.getLast? ≠ some 0

def revVal : List Char → Nat
  | [] => 0
  | c :: cs => parseDigit c + 10 * revVal cs

theorem base_pos : 0 < base := by norm_num [base]

theorem one_lt_base : 1 < base := by norm_num [base]

theorem lVal_nil : lVal [] = 0 := rfl

theorem lVal_cons (d : Nat) (ds : List Nat) : lVal (d :: ds) = d + base * lVal ds := rfl

theorem lVal_headD (l : List Nat) : lVal l = l.headD 0 + base * lVal l.tail := by
  cases l <;> simp [lVal]

theorem carryRun_val {f r : Nat} (h : r < f) : lVal (carryRun f r) = r := by
  induction f generalizing r with
  | zero => omega
  | succ f ih =>
    cases r with
    | zero => simp [carryRun, lVal]
    | succ r =>
      have hlt : (r + 1) / base < f := by
        have h1 : (r + 1) / base < r + 1 := Nat.div_lt_self (Nat.succ_pos r) one_lt_base
        omega
      simp only [carryRun, lVal, ih hlt]
      have := Nat.mod_add_div (r + 1) base
      omega

theorem addTail_val (bs : List Nat) (r : Nat) : lVal (addTail bs r) = lVal bs + r := by
  induction bs generalizing r with
  | nil => simp [addTail, lVal, carryRun_val (Nat.lt_succ_self r)]
  | cons b bs ih =>
    simp only [addTail, lVal, ih, Nat.mul_add]
    have := Nat.mod_add_div (b + r) base
    omega

theorem addLoop_val (as : List Nat) : ∀ bs r, lVal (addLoop as bs r) = lVal as + lVal bs + r := by
  induction as with
  | nil => intro bs r; simp [addLoop, addTail_val, lVal]
  | cons a as ih =>
    intro bs r
    simp only [addLoop, lVal, ih, Nat.mul_add]
    have h1 := Nat.mod_add_div (a + bs.headD 0 + r) base
    have h2 := lVal_headD bs
    omega

theorem base_eq : base = 33554432 := by norm_num [base]

theorem lVal_lt_pow {l : List Nat} (h : Limbs l) : lVal l < base ^ l.length := by
  induction l with
  | nil => simp [lVal, base_pos]
  | cons d ds ih =>
    have hd : d < base := h d (by simp)
    have ht : lVal ds < base ^ ds.length := ih (fun x hx => h x (by simp [hx]))
    have h1 : base * lVal ds + base ≤ base * base ^ ds.length := by
      calc base * lVal ds + base = base * (lVal ds + 1) := by ring
        _ ≤ base * base ^ ds.length := Nat.mul_le_mul_left base ht
    have h2 : base * base ^ ds.length = base ^ ds.length * base := Nat.mul_comm _ _
    simp only [lVal, List.length_cons, pow_succ]
    omega

theorem isZeroL_iff (l : List Nat) : isZeroL l = true ↔ lVal l = 0 := by
  induction l with
  | nil => simp [isZeroL, lVal]
  | cons d ds ih =>
    have hb := base_pos
    simp only [isZeroL, List.all_cons, Bool.and_eq_true, beq_iff_eq, lVal]
    rw [show (ds.all (· == 0) = true) ↔ isZeroL ds = true from Iff.rfl, ih]
    constructor
    · rintro ⟨h1, h2⟩
      simp [h1, h2]
    · intro h
      have h1 : d = 0 := by omega
      have h2 : base * lVal ds = 0 := by omega
      have h3 : lVal ds = 0 := by
        rcases Nat.mul_eq_zero.mp h2 with h' | h'
        · omega
        · exact h'
      exact ⟨h1, h3⟩

theorem carryRun_limbs (f r : Nat) : Limbs (carryRun f r) := by
  induction f generalizing r with
  | zero => intro x hx; simp [carryRun] at hx
  | succ f ih =>
    cases r with
    | zero => intro x hx; simp [carryRun] at hx
    | succ r =>
      intro x hx
      simp only [carryRun, List.mem_cons] at hx
      rcases hx with h | h
      · exact h ▸ Nat.mod_lt _ base_pos
      · exact ih _ x h

theorem addTail_limbs (bs : List Nat) (r : Nat) : Limbs (addTail bs r) := by
  induction bs generalizing r with
  | nil => exact carryRun_limbs _ _
  | cons b bs ih =>
    intro x hx
    simp only [addTail, List.mem_cons] at hx
    rcases hx with h | h
    · exact h ▸ Nat.mod_lt _ base_pos
    · exact ih _ x h

theorem addLoop_limbs (as : List Nat) : ∀ bs r, Limbs (addLoop as bs r) := by
  induction as with
  | nil => intro bs r; exact addTail_limbs bs r
  | cons a as ih =>
    intro bs r x hx
    simp only [addLoop, List.mem_cons] at hx
    rcases hx with h | h
    · exact h ▸ Nat.mod_lt _ base_pos
    · exact ih _ _ x h

theorem addCarry_val (l : List Nat) : ∀ r, lVal (addCarry l r) = lVal l + r := by
  induction l with
  | nil =>
    intro r
    cases r with
    | zero => simp [addCarry]
    | succ r =>
      rw [show addCarry [] (r + 1) = carryRun (r + 2) (r + 1) from rfl,
        carryRun_val (Nat.lt_succ_self (r + 1))]
      simp [lVal]
  | cons c cs ih =>
    intro r
    cases r with
    | zero => simp [addCarry]
    | succ r =>
      simp only [addCarry, lVal, ih, Nat.mul_add]
      have := Nat.mod_add_div (c + (r + 1)) base
      omega

theorem addCarry_limbs {l : List Nat} (hl : Limbs l) : ∀ r, Limbs (addCarry l r) := by
  induction l with
  | nil =>
    intro r
    cases r with
    | zero => intro x hx; simp [addCarry] at hx
    | succ r => exact carryRun_limbs _ _
  | cons c cs ih =>
    intro r
    cases r with
    | zero => exact hl
    | succ r =>
      intro x hx
      simp only [addCarry, List.mem_cons] at hx
      rcases hx with h | h
      · exact h ▸ Nat.mod_lt _ base_pos
      · exact ih (fun y hy => hl y (by simp [hy])) _ x h

theorem mulAdd_val (x : Nat) (bs : List Nat) :
    ∀ res r, lVal (mulAdd x bs res r) = x * lVal bs + lVal res + r := by
  induction bs with
  | nil => intro res r; simp [mulAdd, addCarry_val, lVal]
  | cons b bs ih =>
    intro res r
    simp only [mulAdd, lVal, ih, Nat.mul_add]
    have h1 := Nat.mod_add_div (r + res.headD 0 + x * b) base
    have h2 := lVal_headD res
    ring_nf
    ring_nf at h1 h2
    omega

theorem mulAdd_limbs (x : Nat) (bs : List Nat) : ∀ res r, Limbs res → Limbs (mulAdd x bs res r) := by
  induction bs with
  | nil => intro res r h; exact addCarry_limbs h r
  | cons b bs ih =>
    intro res r h y hy
    simp only [mulAdd, List.mem_cons] at hy
    rcases hy with h' | h'
    · exact h' ▸ Nat.mod_lt _ base_pos
    · exact ih _ _ (fun z hz => h z (List.mem_of_mem_tail hz)) y h'

theorem mulLoop_val (as : List Nat) :
    ∀ bs res, lVal (mulLoop as bs res) = lVal as * lVal bs + lVal res := by
  induction as with
  | nil => intro bs res; simp [mulLoop, lVal]
  | cons a as ih =>
    intro bs res
    simp only [mulLoop]
    rw [lVal_cons, lVal_cons, ih, Nat.mul_add, Nat.add_mul]
    have h1 : lVal (mulAdd a bs res 0) = a * lVal bs + lVal res + 0 := mulAdd_val a bs res 0
    have h2 := lVal_headD (mulAdd a bs res 0)
    have h4 : base * lVal as * lVal bs = base * (lVal as * lVal bs) := by ring
    rw [h4]
    omega

theorem headD_lt {l : List Nat} (h : Limbs l) : l.headD 0 < base := by
  cases l with
  | nil => simpa using base_pos
  | cons x xs => exact h x (by simp)

theorem mulLoop_limbs (as : List Nat) : ∀ bs res, Limbs res → Limbs (mulLoop as bs res) := by
  induction as with
  | nil => intro bs res h; exact h
  | cons a as ih =>
    intro bs res h y hy
    have hm : Limbs (mulAdd a bs res 0) := mulAdd_limbs a bs res 0 h
    simp only [mulLoop, List.mem_cons] at hy
    rcases hy with h' | h'
    · exact h' ▸ headD_lt hm
    · exact ih _ _ (fun z hz => hm z (List.mem_of_mem_tail hz)) y h'

theorem subLoop_spec (as : List Nat) :
    ∀ bs brw, Limbs as → Limbs bs → brw ≤ 1 → bs.length ≤ as.length →
      lVal bs + brw ≤ lVal as →
      lVal (subLoop as bs brw) = lVal as - (lVal bs + brw) ∧ Limbs (subLoop as bs brw) := by
  induction as with
  | nil =>
    intro bs brw _ _ _ hlen hv
    constructor
    · have : bs = [] := List.length_eq_zero.mp (Nat.le_zero.mp hlen)
      subst this
      simp only [subLoop, lVal] at *
      omega
    · intro x hx; simp [subLoop] at hx
  | cons a as ih =>
    intro bs brw ha hb hbrw hlen hv
    have haa : a < base := ha a (by simp)
    have hat : Limbs as := fun x hx => ha x (by simp [hx])
    have hbt : Limbs bs.tail := fun x hx => hb x (List.mem_of_mem_tail hx)
    have hb0 : bs.headD 0 < base := by
      cases bs with
      | nil => simpa using base_pos
      | cons y ys => exact hb y (by simp)
    have hlent : bs.tail.length ≤ as.length := by
      cases bs with
      | nil => simp
      | cons y ys =>
        simp only [List.length_cons] at hlen
        simpa using Nat.le_of_succ_le_succ hlen
    have hvs := lVal_headD bs
    rw [lVal_cons] at hv
    by_cases hc : a < bs.headD 0 + brw
    · have hvt : lVal bs.tail + 1 ≤ lVal as := by
        rw [base_eq] at *
        omega
      obtain ⟨ihv, ihl⟩ := ih bs.tail 1 hat hbt (le_refl 1) hlent hvt
      simp only [subLoop]
      rw [if_pos hc]
      constructor
      · simp only [lVal_cons]
        rw [ihv]
        rw [base_eq] at *
        omega
      · intro x hx
        rcases List.mem_cons.mp hx with h' | h'
        · rw [base_eq] at *
          omega
        · exact ihl x h'
    · have hvt : lVal bs.tail + 0 ≤ lVal as := by
        rw [base_eq] at *
        omega
      obtain ⟨ihv, ihl⟩ := ih bs.tail 0 hat hbt (Nat.zero_le 1) hlent hvt
      simp only [subLoop]
      rw [if_neg hc]
      constructor
      · simp only [lVal_cons]
        rw [ihv]
        rw [base_eq] at *
        omega
      · intro x hx
        rcases List.mem_cons.mp hx with h' | h'
        · rw [base_eq] at *
          omega
        · exact ihl x h'

theorem lVal_append (l1 l2 : List Nat) :
    lVal (l1 ++ l2) = lVal l1 + base ^ l1.length * lVal l2 := by
  induction l1 with
  | nil => simp [lVal]
  | cons d ds ih =>
    rw [List.cons_append, lVal_cons, lVal_cons, ih, List.length_cons, pow_succ]
    ring

theorem lVal_append_zeros {l2 : List Nat} (l1 : List Nat) (h : ∀ x ∈ l2, x = 0) :
    lVal (l1 ++ l2) = lVal l1 := by
  have h2 : lVal l2 = 0 := by
    induction l2 with
    | nil => rfl
    | cons y ys ih =>
      rw [lVal_cons, h y (by simp), ih (fun x hx => h x (by simp [hx]))]
      simp
  simp [lVal_append, h2]

theorem trimEnd_decomp (l : List Nat) :
    ∃ z, l = trimEnd l ++ z ∧ ∀ x ∈ z, x = 0 := by
  cases l with
  | nil => exact ⟨[], by simp [trimEnd]⟩
  | cons x xs =>
    refine ⟨(xs.reverse.takeWhile (· == 0)).reverse, ?_, ?_⟩
    · have h1 : xs.reverse = xs.reverse.takeWhile (· == 0) ++ xs.reverse.dropWhile (· == 0) :=
        (List.takeWhile_append_dropWhile _ _).symm
      have h2 : xs = (xs.reverse.dropWhile (· == 0)).reverse ++ (xs.reverse.takeWhile (· == 0)).reverse := by
        conv_lhs => rw [← List.reverse_reverse xs]
        rw [congrArg List.reverse h1, List.reverse_append]
      simp only [trimEnd, List.cons_append]
      exact congrArg (x :: ·) h2
    · intro y hy
      have hmem : y ∈ xs.reverse.takeWhile (· == 0) := by
        simpa using hy
      have := List.mem_takeWhile_imp hmem
      simpa using this

theorem trimEnd_val (l : List Nat) : lVal (trimEnd l) = lVal l := by
  obtain ⟨z, hz, h0⟩ := trimEnd_decomp l
  conv_rhs => rw [hz]
  rw [lVal_append_zeros _ h0]

theorem trimEnd_limbs {l : List Nat} (h : Limbs l) : Limbs (trimEnd l) := by
  obtain ⟨z, hz, _⟩ := trimEnd_decomp l
  intro x hx
  exact h x (by rw [hz]; exact List.mem_append_left _ hx)

theorem trimEnd_length_le (l : List Nat) : (trimEnd l).length ≤ l.length := by
  obtain ⟨z, hz, _⟩ := trimEnd_decomp l
  conv_rhs => rw [hz]
  simp

theorem trimEnd_canon (l : List Nat) (h : l ≠ []) : Canon (trimEnd l) := by
  cases l with
  | nil => exact absurd rfl h
  | cons x xs =>
    simp only [trimEnd]
    cases hd : xs.reverse.dropWhile (· == 0) with
    | nil =>
      simp only [hd, List.reverse_nil]
      by_cases hx : x = 0
      · exact Or.inl (by rw [hx])
      · exact Or.inr ⟨by simp, by simpa using hx⟩
    | cons y ys =>
      have hy : ¬ (y == 0) = true := by
        have := List.head?_dropWhile_not (fun z : Nat => z == 0) xs.reverse
        rw [hd] at this
        simpa using this
      refine Or.inr ⟨by simp, ?_⟩
      rw [show x :: (y :: ys).reverse = (x :: ys.reverse) ++ [y] from by simp,
        List.getLast?_concat]
      simpa using hy

theorem vM_lt_pow {l : List Nat} (h : Limbs l) : vM l < base ^ l.length := by
  induction l with
  | nil => simp [vM, base_pos]
  | cons x xs ih =>
    have hx : x < base := h x (by simp)
    have ht : vM xs < base ^ xs.length := ih (fun y hy => h y (by simp [hy]))
    have h1 : (x + 1) * base ^ xs.length ≤ base * base ^ xs.length :=
      Nat.mul_le_mul_right _ (by omega)
    simp only [vM, List.length_cons, pow_succ]
    have h2 : base * base ^ xs.length = base ^ xs.length * base := Nat.mul_comm _ _
    have h3 : (x + 1) * base ^ xs.length = x * base ^ xs.length + base ^ xs.length := by ring
    omega

theorem vM_concat (xs : List Nat) (d : Nat) : vM (xs ++ [d]) = vM xs * base + d := by
  induction xs with
  | nil => simp [vM]
  | cons x xs ih =>
    have h1 : vM ((x :: xs) ++ [d]) = x * base ^ (xs ++ [d]).length + vM (xs ++ [d]) := rfl
    have h2 : (xs ++ [d]).length = xs.length + 1 := by simp
    rw [h1, h2, ih, pow_succ, show vM (x :: xs) = x * base ^ xs.length + vM xs from rfl]
    ring

theorem lVal_eq_vM_reverse (l : List Nat) : lVal l = vM l.reverse := by
  induction l with
  | nil => rfl
  | cons d ds ih =>
    rw [lVal_cons, ih, List.reverse_cons, vM_concat]
    ring

theorem cmpRev_spec (ra : List Nat) :
    ∀ rb, Limbs ra → Limbs rb → ra.length = rb.length →
      cmpRev ra rb = if vM ra < vM rb then -1 else if vM rb < vM ra then 1 else 0 := by
  induction ra with
  | nil =>
    intro rb _ _ hlen
    have : rb = [] := List.length_eq_zero.mp hlen.symm
    subst this
    simp [cmpRev, vM]
  | cons a as ih =>
    intro rb ha hb hlen
    cases rb with
    | nil => simp at hlen
    | cons b bs =>
      have haa : a < base := ha a (by simp)
      have hba : b < base := hb b (by simp)
      have hat : Limbs as := fun x hx => ha x (by simp [hx])
      have hbt : Limbs bs := fun x hx => hb x (by simp [hx])
      have hlen' : as.length = bs.length := by simpa using hlen
      have hvas : vM as < base ^ as.length := vM_lt_pow hat
      have hvbs : vM bs < base ^ bs.length := vM_lt_pow hbt
      simp only [cmpRev, List.headD_cons, List.tail_cons, vM]
      rcases Nat.lt_trichotomy a b with hab | hab | hab
      · have key : a * base ^ as.length + base ^ as.length ≤ b * base ^ bs.length := by
          have h1 : (a + 1) * base ^ as.length ≤ b * base ^ as.length :=
            Nat.mul_le_mul_right _ (by omega)
          calc a * base ^ as.length + base ^ as.length
              = (a + 1) * base ^ as.length := by ring
            _ ≤ b * base ^ as.length := h1
            _ = b * base ^ bs.length := by rw [hlen']
        have hcond : a * base ^ as.length + vM as < b * base ^ bs.length + vM bs := by
          omega
        rw [if_neg (by omega : ¬ a > b), if_pos hab, if_pos hcond]
      · subst hab
        have hprod : a * base ^ as.length = a * base ^ bs.length := by rw [hlen']
        have hcond1 : (a * base ^ as.length + vM as < a * base ^ bs.length + vM bs) ↔
            vM as < vM bs := by omega
        have hcond2 : (a * base ^ bs.length + vM bs < a * base ^ as.length + vM as) ↔
            vM bs < vM as := by omega
        rw [if_neg (by omega : ¬ a > a), if_neg (by omega : ¬ a < a), ih bs hat hbt hlen']
        simp only [hcond1, hcond2]
      · have key : b * base ^ bs.length + base ^ bs.length ≤ a * base ^ as.length := by
          have h1 : (b + 1) * base ^ bs.length ≤ a * base ^ bs.length :=
            Nat.mul_le_mul_right _ (by omega)
          calc b * base ^ bs.length + base ^ bs.length
              = (b + 1) * base ^ bs.length := by ring
            _ ≤ a * base ^ bs.length := h1
            _ = a * base ^ as.length := by rw [hlen']
        have hge : b * base ^ bs.length + vM bs < a * base ^ as.length + vM as := by
          omega
        have hnc : ¬ (a * base ^ as.length + vM as < b * base ^ bs.length + vM bs) := by
          omega
        rw [if_pos hab, if_neg hnc, if_pos hge]

theorem canon_singleton (x : Nat) : Canon [x] := by
  by_cases hx : x = 0
  · exact Or.inl (by rw [hx])
  · exact Or.inr ⟨by simp, by simpa using hx⟩

theorem val_of_canon : ∀ l : List Nat, Limbs l → Canon l →
    l = [0] ∨ base ^ (l.length - 1) ≤ lVal l := by
  intro l
  induction l with
  | nil => intro _ hc; rcases hc with h | ⟨h, _⟩ <;> simp at h
  | cons x t ih =>
    intro hl hc
    cases t with
    | nil =>
      by_cases hx : x = 0
      · exact Or.inl (by rw [hx])
      · right
        have h1 : ([x] : List Nat).length - 1 = 0 := by simp
        rw [h1, pow_zero, show lVal [x] = x + base * 0 from rfl]
        omega
    | cons y t' =>
      right
      have hx : x < base := hl x (by simp)
      have hlast : (x :: y :: t').getLast? = (y :: t').getLast? := by
        rfl
      have hc' : Canon (y :: t') := by
        rcases hc with h | ⟨_, h⟩
        · simp at h
        · exact Or.inr ⟨by simp, by rw [← hlast]; exact h⟩
      have iht := ih (fun z hz => hl z (by simp at hz; rcases hz with h | h <;> simp [h])) hc'
      rcases iht with h | h
      · rcases hc with hh | ⟨_, hh⟩
        · simp at hh
        · rw [hlast, h] at hh
          simp at hh
      · have hstep : base ^ ((x :: y :: t').length - 1) = base * base ^ ((y :: t').length - 1) := by
          have h1 : (x :: y :: t').length - 1 = ((y :: t').length - 1) + 1 := by
            simp only [List.length_cons]; omega
          rw [h1, pow_succ]
          ring
        rw [lVal_cons, hstep]
        calc base * base ^ ((y :: t').length - 1) ≤ base * lVal (y :: t') :=
              Nat.mul_le_mul_left base h
          _ ≤ x + base * lVal (y :: t') := by omega

theorem canon_of_val_length : ∀ l : List Nat, Limbs l → l ≠ [] →
    base ^ (l.length - 1) ≤ lVal l → Canon l := by
  intro l
  induction l with
  | nil => intro _ h _; exact absurd rfl h
  | cons x t ih =>
    intro hl _ hv
    cases t with
    | nil => exact canon_singleton x
    | cons y t' =>
      have hx : x < base := hl x (by simp)
      have hstep : base ^ ((x :: y :: t').length - 1) = base * base ^ ((y :: t').length - 1) := by
        have h1 : (x :: y :: t').length - 1 = ((y :: t').length - 1) + 1 := by
          simp only [List.length_cons]; omega
        rw [h1, pow_succ]
        ring
      rw [hstep, lVal_cons] at hv
      have hv' : base ^ ((y :: t').length - 1) ≤ lVal (y :: t') := by
        by_contra hcon
        push_neg at hcon
        have : base * lVal (y :: t') + base ≤ base * base ^ ((y :: t').length - 1) := by
          calc base * lVal (y :: t') + base = base * (lVal (y :: t') + 1) := by ring
            _ ≤ base * base ^ ((y :: t').length - 1) := Nat.mul_le_mul_left base hcon
        omega
      have hc' := ih (fun z hz => hl z (by simp at hz; rcases hz with h | h <;> simp [h]))
        (by simp) hv'
      have hne : (y :: t') ≠ [0] := by
        intro h
        rw [h] at hv'
        simp [lVal] at hv'
      rcases hc' with h | ⟨_, h⟩
      · exact absurd h hne
      · exact Or.inr ⟨by simp, by rw [show (x :: y :: t').getLast? = (y :: t').getLast? from rfl]; exact h⟩

theorem addTail_length (bs : List Nat) : ∀ r, Limbs bs → r ≤ 1 →
    (addTail bs r).length = bs.length ∨
    ((addTail bs r).length = bs.length + 1 ∧ base ^ bs.length ≤ lVal bs + r) := by
  induction bs with
  | nil =>
    intro r _ hr
    rcases Nat.le_one_iff_eq_zero_or_eq_one.mp hr with rfl | rfl
    · exact Or.inl rfl
    · right
      have h1 : carryRun 2 1 = [1] := by
        show 1 % base :: carryRun 1 (1 / base) = [1]
        rw [Nat.mod_eq_of_lt one_lt_base, Nat.div_eq_of_lt one_lt_base]
        rfl
      refine ⟨?_, by simp [lVal]⟩
      show (carryRun 2 1).length = 1
      rw [h1]
      rfl
  | cons b bs ih =>
    intro r hl hr
    have hb : b < base := hl b (by simp)
    have hr' : (b + r) / base ≤ 1 := by
      have : b + r < 2 * base := by omega
      have := (Nat.div_lt_iff_lt_mul base_pos).mpr this
      omega
    rcases ih ((b + r) / base) (fun x hx => hl x (by simp [hx])) hr' with h | ⟨h1, h2⟩
    · left
      show (addTail bs ((b + r) / base)).length + 1 = bs.length + 1
      rw [h]
    · right
      constructor
      · show (addTail bs ((b + r) / base)).length + 1 = bs.length + 1 + 1
        rw [h1]
      · have h3 : base * base ^ bs.length ≤ base * (lVal bs + (b + r) / base) :=
          Nat.mul_le_mul_left base h2
        have h4 : base * ((b + r) / base) ≤ b + r := by
          have := Nat.div_mul_le_self (b + r) base
          calc base * ((b + r) / base) = (b + r) / base * base := Nat.mul_comm _ _
            _ ≤ b + r := this
        rw [List.length_cons, pow_succ, lVal_cons]
        have h5 : base ^ bs.length * base = base * base ^ bs.length := Nat.mul_comm _ _
        rw [h5, Nat.mul_add] at *
        omega

theorem addLoop_length (as : List Nat) : ∀ bs r, Limbs as → Limbs bs → r ≤ 1 →
    (addLoop as bs r).length = max as.length bs.length ∨
    ((addLoop as bs r).length = max as.length bs.length + 1 ∧
      base ^ max as.length bs.length ≤ lVal as + lVal bs + r) := by
  induction as with
  | nil =>
    intro bs r _ hb hr
    rcases addTail_length bs r hb hr with h | ⟨h1, h2⟩
    · left
      simpa [addLoop] using h
    · right
      simp only [addLoop, List.length_nil, Nat.zero_max, lVal_nil]
      exact ⟨h1, by omega⟩
  | cons a as ih =>
    intro bs r ha hb hr
    have haa : a < base := ha a (by simp)
    have hb0 : bs.headD 0 < base := headD_lt hb
    have hat : Limbs as := fun x hx => ha x (by simp [hx])
    have hbt : Limbs bs.tail := fun x hx => hb x (List.mem_of_mem_tail hx)
    have hr' : (a + bs.headD 0 + r) / base ≤ 1 := by
      have : a + bs.headD 0 + r < 2 * base := by omega
      have := (Nat.div_lt_iff_lt_mul base_pos).mpr this
      omega
    have hmax : max (a :: as).length bs.length = max as.length bs.tail.length + 1 := by
      cases bs with
      | nil => simp
      | cons y ys => simp [Nat.succ_max_succ]
    have hbv := lVal_headD bs
    have hdm : base * ((a + bs.headD 0 + r) / base) ≤ a + bs.headD 0 + r := by
      have := Nat.div_mul_le_self (a + bs.headD 0 + r) base
      calc base * ((a + bs.headD 0 + r) / base)
          = (a + bs.headD 0 + r) / base * base := Nat.mul_comm _ _
        _ ≤ a + bs.headD 0 + r := this
    rcases ih bs.tail ((a + bs.headD 0 + r) / base) hat hbt hr' with h | ⟨h1, h2⟩
    · left
      show (addLoop as bs.tail ((a + bs.headD 0 + r) / base)).length + 1 = _
      rw [h, hmax]
    · right
      constructor
      · show (addLoop as bs.tail ((a + bs.headD 0 + r) / base)).length + 1 = _
        rw [h1, hmax]
      · rw [hmax, pow_succ, lVal_cons]
        have h3 : base * base ^ max as.length bs.tail.length ≤
            base * (lVal as + lVal bs.tail + (a + bs.headD 0 + r) / base) :=
          Nat.mul_le_mul_left base h2
        have h5 : base ^ max as.length bs.tail.length * base =
            base * base ^ max as.length bs.tail.length := Nat.mul_comm _ _
        rw [h5, Nat.mul_add, Nat.mul_add] at *
        omega

theorem canon_addLoop {a b : List Nat} (ha : Limbs a) (hb : Limbs b)
    (hca : Canon a) (hcb : Canon b) : Canon (addLoop a b 0) := by
  by_cases hz : a = [0] ∧ b = [0]
  · obtain ⟨rfl, rfl⟩ := hz
    have : addLoop [0] [0] 0 = [0] := by
      show (0 + 0 + 0) % base :: addLoop [] [] ((0 + 0 + 0) / base) = [0]
      rw [Nat.zero_mod, Nat.zero_div]
      rfl
    rw [this]
    exact Or.inl rfl
  · have hna : a ≠ [] := by
      rcases hca with h | ⟨h, _⟩ <;> simp [h]
    have hnb : b ≠ [] := by
      rcases hcb with h | ⟨h, _⟩ <;> simp [h]
    have hla : 1 ≤ a.length := by
      cases a
      · exact absurd rfl hna
      · simp
    have hlb : 1 ≤ b.length := by
      cases b
      · exact absurd rfl hnb
      · simp
    have hlow : base ^ (max a.length b.length - 1) ≤ lVal a + lVal b := by
      rcases val_of_canon a ha hca with ha0 | hva
      · rcases val_of_canon b hb hcb with hb0 | hvb
        · exact absurd ⟨ha0, hb0⟩ hz
        · have hM : max a.length b.length = b.length := by
            rw [ha0]
            simp [Nat.max_eq_right hlb]
          rw [hM]
          omega
      · rcases val_of_canon b hb hcb with hb0 | hvb
        · have hM : max a.length b.length = a.length := by
            rw [hb0]
            simp [Nat.max_eq_left hla]
          rw [hM]
          omega
        · rcases Nat.le_total a.length b.length with hle | hle
          · have hM : max a.length b.length = b.length := Nat.max_eq_right hle
            rw [hM]
            omega
          · have hM : max a.length b.length = a.length := Nat.max_eq_left hle
            rw [hM]
            omega
    have hvz := addLoop_val a b 0
    have hlz := addLoop_limbs a b 0
    rcases addLoop_length a b 0 ha hb (Nat.zero_le 1) with h | ⟨h1, h2⟩
    · apply canon_of_val_length _ hlz
      · intro hcon
        rw [hcon] at h
        simp at h
        omega
      · rw [hvz, h]
        omega
    · apply canon_of_val_length _ hlz
      · intro hcon
        rw [hcon] at h1
        simp at h1
      · rw [hvz, h1]
        have : max a.length b.length + 1 - 1 = max a.length b.length := by omega
        rw [this]
        omega

theorem getLast?_cons_of_ne {α : Type} (x : α) {l : List α} (h : l ≠ []) :
    (x :: l).getLast? = l.getLast? := by
  cases l with
  | nil => exact absurd rfl h
  | cons y ys => exact List.getLast?_cons_cons

theorem carryRun_canon : ∀ f r, 0 < r → r < f → Canon (carryRun f r) := by
  intro f
  induction f with
  | zero => intro r _ h; omega
  | succ f ih =>
    intro r hr hf
    cases r with
    | zero => omega
    | succ r =>
      by_cases hq : (r + 1) / base = 0
      · have : carryRun (f + 1) (r + 1) = [(r + 1) % base] := by
          show (r + 1) % base :: carryRun f ((r + 1) / base) = _
          rw [hq]
          cases f <;> rfl
        rw [this]
        exact canon_singleton _
      · have hlt : (r + 1) / base < f := by
          have h1 : (r + 1) / base < r + 1 := Nat.div_lt_self (Nat.succ_pos r) one_lt_base
          omega
        have hc := ih ((r + 1) / base) (Nat.pos_of_ne_zero hq) hlt
        have hne : carryRun f ((r + 1) / base) ≠ [] := by
          rcases hc with h | ⟨h, _⟩ <;> simp [h]
        have hne0 : carryRun f ((r + 1) / base) ≠ [0] := by
          intro hcon
          have := carryRun_val hlt
          rw [hcon] at this
          simp [lVal] at this
          omega
      -- the most significant limb of the tail decides the last limb of the whole run
        rcases hc with h | ⟨_, h⟩
        · exact absurd h hne0
        · refine Or.inr ⟨by simp [carryRun], ?_⟩
          show ((r + 1) % base :: carryRun f ((r + 1) / base)).getLast? ≠ some 0
          rw [getLast?_cons_of_ne _ hne]
          exact h

theorem factors_prod : factors.prod = base := by
  rw [factors, List.prod_replicate, base]

theorem validBN_elim {v : BN} (h : ValidBN v) :
    ∃ l, v.number = .limbs l ∧ Limbs l ∧ Canon l ∧ (v.sign = 1 ∨ v.sign = -1) := by
  rcases v with ⟨n, s, r⟩
  cases n with
  | limbs l =>
    refine ⟨l, rfl, ?_⟩
    unfold ValidBN validBN at h
    simp only [Bool.and_eq_true, Bool.or_eq_true, decide_eq_true_eq, beq_iff_eq] at h
    exact ⟨h.1.1, h.1.2, h.2⟩
  | err e =>
    unfold ValidBN validBN at h
    simp at h

theorem validBN_intro {v : BN} {l : List Nat} (hn : v.number = .limbs l)
    (hl : Limbs l) (hc : Canon l) (hs : v.sign = 1 ∨ v.sign = -1) : ValidBN v := by
  unfold ValidBN validBN
  rw [hn]
  simp only [Bool.and_eq_true, Bool.or_eq_true, decide_eq_true_eq, beq_iff_eq]
  exact ⟨⟨hl, hc⟩, hs⟩

theorem natLimbs_val (n : Nat) : lVal (natLimbs n) = n := by
  unfold natLimbs
  by_cases h : n = 0
  · simp [h, lVal]
  · rw [if_neg h, carryRun_val (Nat.lt_succ_self n)]

theorem natLimbs_limbs (n : Nat) : Limbs (natLimbs n) := by
  unfold natLimbs
  by_cases h : n = 0
  · rw [if_pos h]
    intro x hx
    simp at hx
    simpa [hx] using base_pos
  · rw [if_neg h]
    exact carryRun_limbs _ _

theorem natLimbs_canon (n : Nat) : Canon (natLimbs n) := by
  unfold natLimbs
  by_cases h : n = 0
  · rw [if_pos h]
    exact Or.inl rfl
  · rw [if_neg h]
    exact carryRun_canon _ _ (Nat.pos_of_ne_zero h) (Nat.lt_succ_self n)

theorem natLimbs_small {n : Nat} (h0 : 0 < n) (hb : n < base) : natLimbs n = [n] := by
  unfold natLimbs
  rw [if_neg (by omega)]
  cases n with
  | zero => omega
  | succ m =>
    show (m + 1) % base :: carryRun (m + 1) ((m + 1) / base) = [m + 1]
    rw [Nat.mod_eq_of_lt hb, Nat.div_eq_of_lt hb]
    cases m <;> rfl

theorem canon_zero_iff {l : List Nat} (hl : Limbs l) (hc : Canon l) :
    lVal l = 0 ↔ l = [0] := by
  constructor
  · intro h
    rcases val_of_canon l hl hc with h' | h'
    · exact h'
    · exfalso
      rw [h] at h'
      have := Nat.pos_pow_of_pos (l.length - 1) base_pos
      omega
  · intro h
    rw [h]
    simp [lVal]

theorem noTrailZ_tail {x : Nat} {t : List Nat} (h : NoTrailZ (x :: t)) : NoTrailZ t := by
  cases t with
  | nil => intro hc; simp at hc
  | cons y u =>
    unfold NoTrailZ at h ⊢
    rwa [getLast?_cons_of_ne x (by simp)] at h

theorem noTrailZ_val_zero : ∀ l : List Nat, NoTrailZ l → lVal l = 0 → l = [] := by
  intro l
  induction l with
  | nil => intro _ _; rfl
  | cons y u ih =>
    intro hn hv
    rw [lVal_cons] at hv
    have hy : y = 0 := by omega
    have hu : lVal u = 0 := by
      have hb := base_pos
      have h2 : base * lVal u = 0 := by omega
      rcases Nat.mul_eq_zero.mp h2 with h' | h'
      · omega
      · exact h'
    have := ih (noTrailZ_tail hn) hu
    subst this
    subst hy
    exact absurd rfl hn

theorem noTrailZ_val_inj : ∀ l1 l2 : List Nat, Limbs l1 → Limbs l2 →
    NoTrailZ l1 → NoTrailZ l2 → lVal l1 = lVal l2 → l1 = l2 := by
  intro l1
  induction l1 with
  | nil =>
    intro l2 _ hl2 _ hn2 hv
    exact (noTrailZ_val_zero l2 hn2 (by rw [← hv]; rfl)).symm
  | cons x t ih =>
    intro l2 hl1 hl2 hn1 hn2 hv
    cases l2 with
    | nil =>
      exact absurd (noTrailZ_val_zero (x :: t) hn1 (by rw [hv]; rfl)) (by simp)
    | cons y u =>
      have hx : x < base := hl1 x (by simp)
      have hy : y < base := hl2 y (by simp)
      rw [lVal_cons, lVal_cons] at hv
      have h3 : (x + base * lVal t) % base = x := by
        rw [Nat.add_mul_mod_self_left, Nat.mod_eq_of_lt hx]
      have h4 : (y + base * lVal u) % base = y := by
        rw [Nat.add_mul_mod_self_left, Nat.mod_eq_of_lt hy]
      have hxy : x = y := by rw [← h3, ← h4, hv]
      have hvt : lVal t = lVal u := by
        have hb := base_pos
        have h5 : base * lVal t = base * lVal u := by omega
        exact Nat.eq_of_mul_eq_mul_left hb h5
      rw [hxy, ih u (fun a ha => hl1 a (by simp [ha])) (fun a ha => hl2 a (by simp [ha]))
        (noTrailZ_tail hn1) (noTrailZ_tail hn2) hvt]

/-- Canonical limb arrays are determined by their value. -/
theorem canon_val_inj {l1 l2 : List Nat} (hl1 : Limbs l1) (hl2 : Limbs l2)
    (hc1 : Canon l1) (hc2 : Canon l2) (hv : lVal l1 = lVal l2) : l1 = l2 := by
  by_cases hz : lVal l1 = 0
  · rw [(canon_zero_iff hl1 hc1).mp hz, (canon_zero_iff hl2 hc2).mp (by omega)]
  · have hnz2 : lVal l2 ≠ 0 := by omega
    have hn1 : NoTrailZ l1 := by
      rcases hc1 with h | ⟨_, h⟩
      · rw [h] at hz
        simp [lVal] at hz
      · exact h
    have hn2 : NoTrailZ l2 := by
      rcases hc2 with h | ⟨_, h⟩
      · rw [h] at hnz2
        simp [lVal] at hnz2
      · exact h
    exact noTrailZ_val_inj l1 l2 hl1 hl2 hn1 hn2 hv

theorem val_lt_of_length_lt {la lb : List Nat} (hla : Limbs la) (hlb : Limbs lb)
    (hca : Canon la) (hcb : Canon lb) (h : la.length < lb.length) : lVal la < lVal lb := by
  have h1 : lVal la < base ^ la.length := lVal_lt_pow hla
  have hne : lb ≠ [0] := by
    intro hc
    have hlen1 : lb.length = 1 := by rw [hc]; rfl
    have hlen0 : la.length = 0 := by omega
    have hla0 : la = [] := List.length_eq_zero.mp hlen0
    rw [hla0] at hca
    rcases hca with h' | ⟨h', _⟩ <;> simp at h'
  rcases val_of_canon lb hlb hcb with h2 | h2
  · exact absurd h2 hne
  · have h3 : base ^ la.length ≤ base ^ (lb.length - 1) :=
      Nat.pow_le_pow_right (Nat.le_of_lt one_lt_base) (by omega)
    omega

theorem bnCompare_same_sign {a b : BN} {la lb : List Nat}
    (hna : a.number = .limbs la) (hnb : b.number = .limbs lb)
    (hla : Limbs la) (hlb : Limbs lb) (hca : Canon la) (hcb : Canon lb)
    (hs : a.sign = b.sign) :
    bnCompare a b =
      a.sign * (if lVal la < lVal lb then -1 else if lVal lb < lVal la then 1 else 0) := by
  have h1 : numbLen a.number = la.length := by rw [hna]; rfl
  have h2 : numbLen b.number = lb.length := by rw [hnb]; rfl
  unfold bnCompare
  rw [if_neg (by simp [hs]), h1, h2]
  rcases Nat.lt_trichotomy la.length lb.length with hl | hl | hl
  · rw [if_neg (by omega), if_pos hl]
    have hv := val_lt_of_length_lt hla hlb hca hcb hl
    rw [if_pos hv]
  · rw [if_neg (by omega), if_neg (by omega)]
    have hcmp : cmpNumb a.number b.number =
        if vM la.reverse < vM lb.reverse then -1
        else if vM lb.reverse < vM la.reverse then 1 else 0 := by
      rw [hna, hnb]
      show cmpRev la.reverse lb.reverse = _
      exact cmpRev_spec la.reverse lb.reverse
        (fun d hd => hla d (List.mem_reverse.mp hd))
        (fun d hd => hlb d (List.mem_reverse.mp hd))
        (by simp [hl])
    rw [hcmp, ← lVal_eq_vM_reverse, ← lVal_eq_vM_reverse]
  · rw [if_pos hl]
    have hv := val_lt_of_length_lt hlb hla hcb hca hl
    rw [if_neg (by omega), if_pos hv]
    ring

theorem bnCompare_sign1 {a b : BN} {la lb : List Nat}
    (hna : a.number = .limbs la) (hnb : b.number = .limbs lb)
    (hla : Limbs la) (hlb : Limbs lb) (hca : Canon la) (hcb : Canon lb)
    (hsa : a.sign = 1) (hsb : b.sign = 1) :
    (bnCompare a b ≤ 0 ↔ lVal la ≤ lVal lb) ∧ (bnCompare a b < 0 ↔ lVal la < lVal lb) := by
  rw [bnCompare_same_sign hna hnb hla hlb hca hcb (by rw [hsa, hsb]), hsa]
  split_ifs with h1 h2 <;> constructor <;> omega

/-- In `divide`'s inner loop (`rest.subtract(bigNumber)` under the guard
`bigNumber.lte(rest)`, both operands positive), `subtract` takes the
like-sign path, keeps sign `1`, and stores the trimmed limb difference. -/
theorem bnSubtract_mag {rest b : BN} {rl bl : List Nat}
    (hnr : rest.number = .limbs rl) (hnb : b.number = .limbs bl)
    (hlr : Limbs rl) (hlb : Limbs bl) (hcr : Canon rl) (hcb : Canon bl)
    (hsr : rest.sign = 1) (hsb : b.sign = 1) (hge : lVal bl ≤ lVal rl) :
    bnSubtract rest b =
      { rest with number := .limbs (trimEnd (subLoop rl bl 0)), sign := 1 } := by
  have hcmp := bnCompare_sign1 hnr hnb hlr hlb hcr hcb hsr hsb
  unfold bnSubtract
  rw [if_neg (by simp [hsr, hsb])]
  have hlt : ¬ bnCompare rest b < 0 := by
    rw [hcmp.2]
    omega
  rw [if_neg hlt]
  have habs : bnCompare (bnAbs { rest with sign := (1 : Int) }) (bnAbs b) =
      if lVal rl < lVal bl then -1 else if lVal bl < lVal rl then 1 else 0 := by
    have := bnCompare_same_sign
      (show (bnAbs { rest with sign := (1 : Int) }).number = .limbs rl from
        by simpa [bnAbs] using hnr)
      (show (bnAbs b).number = .limbs bl from by simpa [bnAbs] using hnb)
      hlr hlb hcr hcb (by simp [bnAbs])
    simpa [bnAbs] using this
  rw [if_neg (by rw [habs]; split_ifs with h1 h2 <;> omega)]
  have hlen : bl.length ≤ rl.length := by
    by_contra hcon
    push_neg at hcon
    exact absurd hge (by have := val_lt_of_length_lt hlr hlb hcr hcb hcon; omega)
  simp only [numbSub, hnr, hnb]

theorem carryRun_one : carryRun 2 1 = [1] := by
  show 1 % base :: carryRun 1 (1 / base) = [1]
  rw [Nat.mod_eq_of_lt one_lt_base, Nat.div_eq_of_lt one_lt_base]
  rfl

theorem addCarry_nil_small {c : Nat} (hc : c ≤ 1) : addCarry [] c = if c = 0 then [] else [c] := by
  interval_cases c
  · rfl
  · show carryRun 2 1 = [1]
    exact carryRun_one

/-- `rest.multiply(BigNumber(2))` performs, limb for limb, the same
computation as adding `rest` to itself (the inner loop doubles each limb
with the same carry chain), which lets the doubling inherit `addLoop`'s
canonicity. -/
theorem mulLoop_two : ∀ l : List Nat, ∀ c : Nat, c ≤ 1 → Limbs l →
    mulLoop l [2] (addCarry [] c) = addLoop l l c := by
  intro l
  induction l with
  | nil =>
    intro c hc _
    show addCarry [] c = addTail [] c
    rw [addCarry_nil_small hc]
    interval_cases c
    · rfl
    · show ([1] : List Nat) = carryRun 2 1
      rw [carryRun_one]
  | cons x xs ih =>
    intro c hc hl
    have hx : x < base := hl x (by simp)
    have hxs : Limbs xs := fun d hd => hl d (by simp [hd])
    have hR : addCarry [] c = if c = 0 then [] else [c] := addCarry_nil_small hc
    have hh : (addCarry [] c).headD 0 = c := by
      rw [hR]
      interval_cases c <;> rfl
    have ht : (addCarry [] c).tail = [] := by
      rw [hR]
      interval_cases c <;> rfl
    have hmadd : mulAdd x [2] (addCarry [] c) 0 =
        ((x + x + c) % base) :: addCarry [] ((x + x + c) / base) := by
      show ((0 + (addCarry [] c).headD 0 + x * 2) % base) ::
          mulAdd x [] (addCarry [] c).tail ((0 + (addCarry [] c).headD 0 + x * 2) / base) = _
      rw [hh, ht]
      have harg : 0 + c + x * 2 = x + x + c := by ring
      rw [harg]
      rfl
    have hc2 : (x + x + c) / base ≤ 1 := by
      have h1 : x + x + c < 2 * base := by omega
      have := (Nat.div_lt_iff_lt_mul base_pos).mpr h1
      omega
    show (mulAdd x [2] (addCarry [] c) 0).headD 0 ::
        mulLoop xs [2] (mulAdd x [2] (addCarry [] c) 0).tail =
      ((x + (x :: xs).headD 0 + c) % base) ::
        addLoop xs (x :: xs).tail ((x + (x :: xs).headD 0 + c) / base)
    rw [hmadd]
    simp only [List.headD_cons, List.tail_cons]
    rw [ih _ hc2 hxs]

theorem subLoop_ne_nil {rl bl : List Nat} (h : rl ≠ []) : subLoop rl bl 0 ≠ [] := by
  cases rl with
  | nil => exact absurd rfl h
  | cons x xs =>
    show (if x < bl.headD 0 + 0 then _ :: _ else _ :: _) ≠ []
    split_ifs <;> simp

theorem bnWhileSub_spec : ∀ (fuel : Nat) (b rest : BN) (q step : Nat) (bl rl : List Nat),
    b.number = .limbs bl → b.sign = 1 → Limbs bl → Canon bl → 0 < lVal bl →
    rest.number = .limbs rl → rest.sign = 1 → Limbs rl → Canon rl →
    lVal rl < fuel →
    ∃ rl', (bnWhileSub fuel b rest q step).2.number = .limbs rl' ∧
      (bnWhileSub fuel b rest q step).2.sign = 1 ∧
      (bnWhileSub fuel b rest q step).2.rest = rest.rest ∧
      Limbs rl' ∧ Canon rl' ∧ lVal rl' = lVal rl % lVal bl ∧
      (bnWhileSub fuel b rest q step).1 = q + lVal rl / lVal bl * step := by
  intro fuel
  induction fuel with
  | zero =>
    intro b rest q step bl rl _ _ _ _ _ _ _ _ _ hf
    omega
  | succ f ih =>
    intro b rest q step bl rl hnb hsb hlb hcb hbv hnr hsr hlr hcr hf
    have hcmp := bnCompare_sign1 hnb hnr hlb hlr hcb hcr hsb hsr
    have hstep : bnWhileSub (f + 1) b rest q step =
        if bnCompare b rest ≤ 0 then bnWhileSub f b (bnSubtract rest b) (q + step) step
        else (q, rest) := rfl
    by_cases hg : lVal bl ≤ lVal rl
    · rw [hstep, if_pos (hcmp.1.mpr hg)]
      have hsub := bnSubtract_mag hnr hnb hlr hlb hcr hcb hsr hsb hg
      have hlen : bl.length ≤ rl.length := by
        by_contra hcon
        push_neg at hcon
        exact absurd hg (by have := val_lt_of_length_lt hlr hlb hcr hcb hcon; omega)
      obtain ⟨hval, hlimb⟩ := subLoop_spec rl bl 0 hlr hlb (Nat.zero_le 1) hlen (by omega)
      have hner : rl ≠ [] := by
        rcases hcr with h | ⟨h, _⟩ <;> simp [h]
      have hrl2v : lVal (trimEnd (subLoop rl bl 0)) = lVal rl - lVal bl := by
        rw [trimEnd_val, hval]
        omega
      have hrl2l : Limbs (trimEnd (subLoop rl bl 0)) := trimEnd_limbs hlimb
      have hrl2c : Canon (trimEnd (subLoop rl bl 0)) :=
        trimEnd_canon _ (subLoop_ne_nil hner)
      have hrec := ih b (bnSubtract rest b) (q + step) step bl (trimEnd (subLoop rl bl 0))
        hnb hsb hlb hcb hbv (by rw [hsub]) (by rw [hsub]) hrl2l hrl2c
        (by rw [hrl2v]; omega)
      obtain ⟨rl', h1, h2, h3, h4, h5, h6, h7⟩ := hrec
      refine ⟨rl', h1, h2, ?_, h4, h5, ?_, ?_⟩
      · rw [h3, hsub]
      · rw [h6, hrl2v, ← Nat.mod_eq_sub_mod hg]
      · rw [h7, hrl2v]
        have hdiv : lVal rl / lVal bl = (lVal rl - lVal bl) / lVal bl + 1 :=
          Nat.div_eq_sub_div hbv hg
        rw [hdiv]
        ring
    · rw [hstep, if_neg (fun hcon => hg (hcmp.1.mp hcon))]
      push_neg at hg
      exact ⟨rl, hnr, hsr, rfl, hlr, hcr, by rw [Nat.mod_eq_of_lt hg],
        by rw [Nat.div_eq_of_lt hg]; ring⟩

theorem bnIsZero_limbs {v : BN} {l : List Nat} (h : v.number = .limbs l) :
    bnIsZero v = isZeroL l := by
  unfold bnIsZero
  rw [h]

/-- `rest.multiply(factors[i])` with factor 2 (return value discarded):
the receiver keeps sign `1` and its limbs are doubled (or left `[0]`). -/
theorem bnMulTwo {rest : BN} {rl : List Nat} (hnr : rest.number = .limbs rl)
    (hsr : rest.sign = 1) (hlr : Limbs rl) (hcr : Canon rl) :
    ∃ rl2, (bnMultiplyRecv rest (bnOfNat 2)).number = .limbs rl2 ∧
      (bnMultiplyRecv rest (bnOfNat 2)).sign = 1 ∧
      Limbs rl2 ∧ Canon rl2 ∧ lVal rl2 = 2 * lVal rl := by
  have h2 : natLimbs 2 = [2] := natLimbs_small (by omega) (by rw [base_eq]; omega)
  have hz2 : bnIsZero (bnOfNat 2) = false := by
    rw [bnIsZero_limbs (show (bnOfNat 2).number = .limbs (natLimbs 2) from rfl), h2]
    rw [show isZeroL [2] = false from rfl]
  unfold bnMultiplyRecv
  by_cases hz : bnIsZero rest = true
  · rw [if_pos (by rw [hz, hz2]; rfl)]
    refine ⟨rl, hnr, hsr, hlr, hcr, ?_⟩
    rw [bnIsZero_limbs hnr] at hz
    have := (isZeroL_iff rl).mp hz
    omega
  · rw [if_neg (by rw [Bool.not_eq_true] at hz; rw [hz, hz2]; simp)]
    unfold bnMultiply
    rw [if_neg (by rw [Bool.not_eq_true] at hz; rw [hz, hz2]; simp)]
    refine ⟨mulLoop rl [2] [], ?_, ?_, ?_, ?_, ?_⟩
    · show (numbMul rest.number (bnOfNat 2).number) = _
      rw [hnr, show (bnOfNat 2).number = .limbs [2] from by rw [show (bnOfNat 2).number = .limbs (natLimbs 2) from rfl, h2]]
      rfl
    · show rest.sign * (bnOfNat 2).sign = 1
      rw [hsr]
      rfl
    · exact mulLoop_limbs rl [2] [] (fun x hx => by simp at hx)
    · have := mulLoop_two rl 0 (Nat.zero_le 1) hlr
      rw [show addCarry [] 0 = [] from rfl] at this
      rw [this]
      exact canon_addLoop hlr hlr hcr hcr
    · rw [mulLoop_val]
      show lVal rl * lVal [2] + lVal [] = 2 * lVal rl
      rw [show lVal [2] = 2 from by rw [lVal_cons, lVal_nil]; omega, lVal_nil]
      ring

/-- `rest.add(BigNumber(n))` (return value discarded) for a native
non-negative `n` while the receiver's sign is `1`: the like-sign `_add`
path runs. -/
theorem bnAddNat {rest : BN} {rl : List Nat} (hnr : rest.number = .limbs rl)
    (hsr : rest.sign = 1) (hlr : Limbs rl) (hcr : Canon rl) (n : Nat) :
    (bnAddRecv rest (bnOfNat n)).number = .limbs (addLoop rl (natLimbs n) 0) ∧
      (bnAddRecv rest (bnOfNat n)).sign = 1 ∧
      Limbs (addLoop rl (natLimbs n) 0) ∧ Canon (addLoop rl (natLimbs n) 0) ∧
      lVal (addLoop rl (natLimbs n) 0) = lVal rl + n := by
  unfold bnAddRecv
  rw [if_neg (by rw [hsr]; show ¬ (1 : Int) ≠ (bnOfNat n).sign; rw [show (bnOfNat n).sign = 1 from rfl]; simp)]
  refine ⟨?_, ?_, ?_, ?_, ?_⟩
  · show numbAdd rest.number (bnOfNat n).number = _
    rw [hnr, show (bnOfNat n).number = .limbs (natLimbs n) from rfl]
    rfl
  · exact hsr
  · exact addLoop_limbs rl (natLimbs n) 0
  · exact canon_addLoop hlr (natLimbs_limbs n) hcr (natLimbs_canon n)
  · rw [addLoop_val, natLimbs_val]
    omega

/-- `divide`'s per-limb factor loop extracts one quotient limb: starting
from running remainder `rest < |b|` and limb digit `d < D = 2^|fs|`, it
accumulates `(lVal rest * D + d) / |b|` into the quotient limb and leaves
`(lVal rest * D + d) % |b|` in `rest`. -/
theorem facLoop_spec : ∀ (fs : List Nat) (d D q : Nat) (b rest : BN) (bl rl : List Nat),
    (∀ f ∈ fs, f = 2) → D = 2 ^ fs.length → d < D →
    b.number = .limbs bl → b.sign = 1 → Limbs bl → Canon bl → 0 < lVal bl →
    rest.number = .limbs rl → rest.sign = 1 → Limbs rl → Canon rl → lVal rl < lVal bl →
    ∃ rl', (facLoop fs d D b rest q).2.number = .limbs rl' ∧
      (facLoop fs d D b rest q).2.sign = 1 ∧
      Limbs rl' ∧ Canon rl' ∧
      lVal rl' = (lVal rl * D + d) % lVal bl ∧
      (facLoop fs d D b rest q).1 = q + (lVal rl * D + d) / lVal bl := by
  intro fs
  induction fs with
  | nil =>
    intro d D q b rest bl rl _ hD hd hnb hsb hlb hcb hbv hnr hsr hlr hcr hrv
    have hd0 : d = 0 := by
      rw [hD] at hd
      simpa using hd
    refine ⟨rl, hnr, hsr, hlr, hcr, ?_, ?_⟩
    · rw [hd0, hD]
      simp only [List.length_nil, pow_zero, Nat.mul_one, Nat.add_zero]
      rw [Nat.mod_eq_of_lt hrv]
    · rw [hd0, hD]
      show q = q + lVal rl * 2 ^ ([] : List Nat).length / lVal bl
      simp only [List.length_nil, pow_zero, Nat.mul_one]
      rw [Nat.div_eq_of_lt hrv]
      omega
  | cons f fs ih =>
    intro d D q b rest bl rl hfs hD hd hnb hsb hlb hcb hbv hnr hsr hlr hcr hrv
    have hf2 : f = 2 := hfs f (by simp)
    subst hf2
    have hDpos : (0 : Nat) < 2 ^ fs.length := Nat.pos_pow_of_pos _ (by omega)
    have hD2 : D / 2 = 2 ^ fs.length := by
      rw [hD, List.length_cons, pow_succ]
      exact Nat.mul_div_cancel _ (by omega)
    have hD2pos : 0 < D / 2 := by rw [hD2]; exact hDpos
    have hd2 : d < 2 ^ fs.length * 2 := by
      rw [hD, List.length_cons, pow_succ] at hd
      exact hd
    obtain ⟨rl1, hn1, hs1, hl1, hc1, hv1⟩ := bnMulTwo hnr hsr hlr hcr
    obtain ⟨hn2, hs2, hl2, hc2, hv2⟩ := bnAddNat hn1 hs1 hl1 hc1 (d / (D / 2))
    have hstep : facLoop (2 :: fs) d D b rest q =
        facLoop fs (d % (D / 2)) (D / 2) b
          (bnWhileSub
            (numbVal (bnAddRecv (bnMultiplyRecv rest (bnOfNat 2)) (bnOfNat (d / (D / 2)))).number + 1)
            b (bnAddRecv (bnMultiplyRecv rest (bnOfNat 2)) (bnOfNat (d / (D / 2)))) q (D / 2)).2
          (bnWhileSub
            (numbVal (bnAddRecv (bnMultiplyRecv rest (bnOfNat 2)) (bnOfNat (d / (D / 2)))).number + 1)
            b (bnAddRecv (bnMultiplyRecv rest (bnOfNat 2)) (bnOfNat (d / (D / 2)))) q (D / 2)).1 := rfl
    obtain ⟨rl3, hn3, hs3, _, hl3, hc3, hv3, hq3⟩ :=
      bnWhileSub_spec
        (numbVal (bnAddRecv (bnMultiplyRecv rest (bnOfNat 2)) (bnOfNat (d / (D / 2)))).number + 1)
        b (bnAddRecv (bnMultiplyRecv rest (bnOfNat 2)) (bnOfNat (d / (D / 2)))) q (D / 2)
        bl (addLoop rl1 (natLimbs (d / (D / 2))) 0)
        hnb hsb hlb hcb hbv hn2 hs2 hl2 hc2
        (by rw [hn2]; exact Nat.lt_succ_self _)
    have hrl3lt : lVal rl3 < lVal bl := by
      rw [hv3]
      exact Nat.mod_lt _ hbv
    obtain ⟨rl', hn', hs', hl', hc', hv', hq'⟩ :=
      ih (d % (D / 2)) (D / 2)
        (bnWhileSub
          (numbVal (bnAddRecv (bnMultiplyRecv rest (bnOfNat 2)) (bnOfNat (d / (D / 2)))).number + 1)
          b (bnAddRecv (bnMultiplyRecv rest (bnOfNat 2)) (bnOfNat (d / (D / 2)))) q (D / 2)).1
        b
        (bnWhileSub
          (numbVal (bnAddRecv (bnMultiplyRecv rest (bnOfNat 2)) (bnOfNat (d / (D / 2)))).number + 1)
          b (bnAddRecv (bnMultiplyRecv rest (bnOfNat 2)) (bnOfNat (d / (D / 2)))) q (D / 2)).2
        bl rl3
        (fun g hg => hfs g (by simp [hg])) hD2 (Nat.mod_lt _ hD2pos)
        hnb hsb hlb hcb hbv hn3 hs3 hl3 hc3 hrl3lt
    have hkey : lVal rl * D + d =
        (lVal rl3 * (D / 2) + d % (D / 2)) +
          lVal bl * ((lVal rl1 + d / (D / 2)) / lVal bl * (D / 2)) := by
      have e1 : D = 2 * (D / 2) := by
        rw [hD2, hD, List.length_cons, pow_succ]
        ring
      have e2 : (D / 2) * (d / (D / 2)) + d % (D / 2) = d := Nat.div_add_mod d (D / 2)
      have e3 : lVal bl * ((lVal rl1 + d / (D / 2)) / lVal bl) +
          (lVal rl1 + d / (D / 2)) % lVal bl = lVal rl1 + d / (D / 2) :=
        Nat.div_add_mod _ (lVal bl)
      have e4 : lVal rl3 = (lVal rl1 + d / (D / 2)) % lVal bl := by rw [hv3, hv2]
      calc lVal rl * D + d
          = lVal rl * (2 * (D / 2)) + ((D / 2) * (d / (D / 2)) + d % (D / 2)) := by
            rw [← e1, e2]
        _ = (2 * lVal rl + d / (D / 2)) * (D / 2) + d % (D / 2) := by ring
        _ = (lVal rl1 + d / (D / 2)) * (D / 2) + d % (D / 2) := by rw [hv1]
        _ = (lVal bl * ((lVal rl1 + d / (D / 2)) / lVal bl) +
              (lVal rl1 + d / (D / 2)) % lVal bl) * (D / 2) + d % (D / 2) := by rw [e3]
        _ = (lVal rl3 * (D / 2) + d % (D / 2)) +
              lVal bl * ((lVal rl1 + d / (D / 2)) / lVal bl * (D / 2)) := by
            rw [e4]
            ring
    rw [hstep]
    refine ⟨rl', hn', hs', hl', hc', ?_, ?_⟩
    · rw [hv', hkey, Nat.add_mul_mod_self_left]
    · rw [hv2] at hq3
      rw [hq', hq3, hkey, Nat.add_mul_div_left _ _ hbv]
      omega

theorem nativeLoop_spec : ∀ (ms : List Nat) (r d : Nat), 0 < d → r < d →
    d * vM (nativeLoop d ms r).1 + (nativeLoop d ms r).2 = r * base ^ ms.length + vM ms ∧
    (nativeLoop d ms r).2 < d ∧ (nativeLoop d ms r).1.length = ms.length ∧
    (Limbs ms → Limbs (nativeLoop d ms r).1) := by
  intro ms
  induction ms with
  | nil =>
    intro r d hd hr
    refine ⟨?_, hr, rfl, fun _ => by intro x hx; simp [nativeLoop] at hx⟩
    show d * vM [] + r = r * base ^ (0 : Nat) + vM []
    simp [vM]
  | cons x ms ih =>
    intro r d hd hr
    have hdm := Nat.div_add_mod (r * base + x) d
    have hmod : r * base + x - (r * base + x) / d * d = (r * base + x) % d := by
      have hc : (r * base + x) / d * d = d * ((r * base + x) / d) := Nat.mul_comm _ _
      omega
    have hrec := ih ((r * base + x) % d) d hd (Nat.mod_lt _ hd)
    have hstep : nativeLoop d (x :: ms) r =
        ((r * base + x) / d :: (nativeLoop d ms ((r * base + x) % d)).1,
          (nativeLoop d ms ((r * base + x) % d)).2) := by
      show ((r * base + x) / d :: (nativeLoop d ms (r * base + x - (r * base + x) / d * d)).1,
        (nativeLoop d ms (r * base + x - (r * base + x) / d * d)).2) = _
      rw [hmod]
    rw [hstep]
    obtain ⟨hval, hrem, hlen, hlimb⟩ := hrec
    refine ⟨?_, hrem, by simpa using hlen, ?_⟩
    · show d * ((r * base + x) / d * base ^ (nativeLoop d ms ((r * base + x) % d)).1.length +
          vM (nativeLoop d ms ((r * base + x) % d)).1) + _ = _
      rw [hlen]
      show _ = r * base ^ (ms.length + 1) + (x * base ^ ms.length + vM ms)
      have e1 : d * ((r * base + x) / d * base ^ ms.length +
            vM (nativeLoop d ms ((r * base + x) % d)).1) +
            (nativeLoop d ms ((r * base + x) % d)).2
          = (d * ((r * base + x) / d)) * base ^ ms.length +
            (d * vM (nativeLoop d ms ((r * base + x) % d)).1 +
              (nativeLoop d ms ((r * base + x) % d)).2) := by ring
      rw [e1, hval]
      have e2 : (r * base + x) = d * ((r * base + x) / d) + (r * base + x) % d := hdm.symm
      calc (d * ((r * base + x) / d)) * base ^ ms.length +
            ((r * base + x) % d * base ^ ms.length + vM ms)
          = (d * ((r * base + x) / d) + (r * base + x) % d) * base ^ ms.length + vM ms := by
            ring
        _ = (r * base + x) * base ^ ms.length + vM ms := by rw [← e2]
        _ = r * base ^ (ms.length + 1) + (x * base ^ ms.length + vM ms) := by
            rw [pow_succ]
            ring
    · intro hms
      intro y hy
      rcases List.mem_cons.mp hy with h | h
      · subst h
        have hx : x < base := hms x (by simp)
        have hbound : r * base + x < d * base := by
          have : (r + 1) * base ≤ d * base := Nat.mul_le_mul_right _ (by omega)
          have e : (r + 1) * base = r * base + base := by ring
          omega
        rw [Nat.div_lt_iff_lt_mul hd]
        calc r * base + x < d * base := hbound
          _ = base * d := Nat.mul_comm _ _
      · exact hlimb (fun z hz => hms z (by simp [hz])) y h

theorem factors_all_two : ∀ f ∈ factors, f = 2 := by
  intro f hf
  exact (List.eq_of_mem_replicate hf)

theorem base_eq_pow_factors : base = 2 ^ factors.length := by
  rw [factors, List.length_replicate, base]

theorem genLoop_spec : ∀ (ms : List Nat) (b rest : BN) (bl rl : List Nat),
    Limbs ms →
    b.number = .limbs bl → b.sign = 1 → Limbs bl → Canon bl → 0 < lVal bl →
    rest.number = .limbs rl → rest.sign = 1 → Limbs rl → Canon rl → lVal rl < lVal bl →
    ∃ rl', (genLoop b ms rest).2.number = .limbs rl' ∧ (genLoop b ms rest).2.sign = 1 ∧
      Limbs rl' ∧ Canon rl' ∧ lVal rl' < lVal bl ∧
      lVal bl * vM (genLoop b ms rest).1 + lVal rl' = lVal rl * base ^ ms.length + vM ms ∧
      (genLoop b ms rest).1.length = ms.length ∧ Limbs (genLoop b ms rest).1 := by
  intro ms
  induction ms with
  | nil =>
    intro b rest bl rl _ hnb hsb hlb hcb hbv hnr hsr hlr hcr hrv
    refine ⟨rl, hnr, hsr, hlr, hcr, hrv, ?_, rfl, fun x hx => by simp [genLoop] at hx⟩
    show lVal bl * vM [] + lVal rl = lVal rl * base ^ (0 : Nat) + vM []
    simp [vM]
  | cons x ms ih =>
    intro b rest bl rl hms hnb hsb hlb hcb hbv hnr hsr hlr hcr hrv
    have hx : x < base := hms x (by simp)
    have hmst : Limbs ms := fun z hz => hms z (by simp [hz])
    obtain ⟨rl1, hn1, hs1, hl1, hc1, hv1, hq1⟩ :=
      facLoop_spec factors x base 0 b rest bl rl factors_all_two base_eq_pow_factors hx
        hnb hsb hlb hcb hbv hnr hsr hlr hcr hrv
    have hr1lt : lVal rl1 < lVal bl := by
      rw [hv1]
      exact Nat.mod_lt _ hbv
    obtain ⟨rl', hn', hs', hl', hc', hlt', hval', hlen', hql'⟩ :=
      ih b (facLoop factors x base b rest 0).2 bl rl1
        hmst hnb hsb hlb hcb hbv hn1 hs1 hl1 hc1 hr1lt
    have hstep : genLoop b (x :: ms) rest =
        ((facLoop factors x base b rest 0).1 :: (genLoop b ms (facLoop factors x base b rest 0).2).1,
          (genLoop b ms (facLoop factors x base b rest 0).2).2) := rfl
    rw [hstep]
    have hdm : lVal bl * ((lVal rl * base + x) / lVal bl) + (lVal rl * base + x) % lVal bl =
        lVal rl * base + x := Nat.div_add_mod _ _
    refine ⟨rl', hn', hs', hl', hc', hlt', ?_, by simpa using hlen', ?_⟩
    · show lVal bl * ((facLoop factors x base b rest 0).1 *
          base ^ (genLoop b ms (facLoop factors x base b rest 0).2).1.length +
          vM (genLoop b ms (facLoop factors x base b rest 0).2).1) + lVal rl' = _
      rw [hlen', hq1]
      have e0 : 0 + (lVal rl * base + x) / lVal bl = (lVal rl * base + x) / lVal bl := by omega
      rw [e0]
      have e1 : lVal bl * ((lVal rl * base + x) / lVal bl * base ^ ms.length +
            vM (genLoop b ms (facLoop factors x base b rest 0).2).1) + lVal rl'
          = (lVal bl * ((lVal rl * base + x) / lVal bl)) * base ^ ms.length +
            (lVal bl * vM (genLoop b ms (facLoop factors x base b rest 0).2).1 + lVal rl') := by
        ring
      rw [e1, hval', hv1]
      show _ = lVal rl * base ^ (ms.length + 1) + (x * base ^ ms.length + vM ms)
      calc (lVal bl * ((lVal rl * base + x) / lVal bl)) * base ^ ms.length +
            ((lVal rl * base + x) % lVal bl * base ^ ms.length + vM ms)
          = (lVal bl * ((lVal rl * base + x) / lVal bl) +
              (lVal rl * base + x) % lVal bl) * base ^ ms.length + vM ms := by ring
        _ = (lVal rl * base + x) * base ^ ms.length + vM ms := by rw [hdm]
        _ = lVal rl * base ^ (ms.length + 1) + (x * base ^ ms.length + vM ms) := by
            rw [pow_succ]
            ring
    · intro y hy
      rcases List.mem_cons.mp hy with h | h
      · subst h
        rw [hq1]
        have hbound : lVal rl * base + x < lVal bl * base := by
          have h1 : (lVal rl + 1) * base ≤ lVal bl * base := Nat.mul_le_mul_right _ (by omega)
          have e : (lVal rl + 1) * base = lVal rl * base + base := by ring
          omega
        have e0 : 0 + (lVal rl * base + x) / lVal bl = (lVal rl * base + x) / lVal bl := by omega
        rw [e0, Nat.div_lt_iff_lt_mul hbv]
        calc lVal rl * base + x < lVal bl * base := hbound
          _ = base * lVal bl := Nat.mul_comm _ _
      · exact hql' y h

theorem length_one_eq {l : List Nat} (h : l.length = 1) : l = [l.headD 0] := by
  cases l with
  | nil => simp at h
  | cons x xs =>
    cases xs with
    | nil => rfl
    | cons y ys => simp at h

theorem bnDivide_err {a b : BN} (h : bnIsZero b = true) :
    bnDivide a b = { a with number := .err divZeroMsg } := by
  unfold bnDivide
  rw [if_pos h]

theorem bnDivide_zero {a b : BN} (hbz : bnIsZero b = false) (haz : bnIsZero a = true) :
    bnDivide a b = bnZero := by
  unfold bnDivide
  rw [if_neg (by rw [hbz]; simp), if_pos haz]

theorem bnDivide_one {a b : BN} {bl : List Nat} (hbz : bnIsZero b = false)
    (haz : bnIsZero a = false) (hnb : b.number = .limbs bl)
    (hsk : (bl.length == 1 && bl.headD 0 == 1) = true) :
    bnDivide a b = { a with sign := a.sign * b.sign } := by
  unfold bnDivide
  rw [if_neg (by rw [hbz]; simp), if_neg (by rw [haz]; simp)]
  have hmatch : (match b.number with
      | .limbs bl => bl.length == 1 && bl.headD 0 == 1
      | .err _ => false) = true := by
    rw [hnb]
    exact hsk
  rw [if_pos hmatch]

theorem bnDivide_native {a b : BN} {al bl : List Nat} (hbz : bnIsZero b = false)
    (haz : bnIsZero a = false) (hna : a.number = .limbs al) (hnb : b.number = .limbs bl)
    (hlen : bl.length = 1) (hd1 : bl.headD 0 ≠ 1) :
    bnDivide a b =
      ⟨.limbs (trimEnd (nativeLoop (bl.headD 0) al.reverse 0).1.reverse), a.sign * b.sign,
        some (.limbs (natLimbs (nativeLoop (bl.headD 0) al.reverse 0).2), 1)⟩ := by
  have hd0 : bl.headD 0 ≠ 0 := by
    intro hc
    rw [bnIsZero_limbs hnb, length_one_eq hlen, hc] at hbz
    simp [isZeroL] at hbz
  unfold bnDivide
  rw [if_neg (by rw [hbz]; simp), if_neg (by rw [haz]; simp)]
  have hmatch : (match b.number with
      | .limbs bl => bl.length == 1 && bl.headD 0 == 1
      | .err _ => false) = false := by
    rw [hnb]
    show (bl.length == 1 && bl.headD 0 == 1) = false
    have h1 : (bl.headD 0 == 1) = false := by simpa using hd1
    rw [h1, Bool.and_false]
  rw [if_neg (by rw [hmatch]; simp)]
  rcases a with ⟨na, sa, ra⟩
  rcases b with ⟨nb, sb, rb⟩
  simp only at hna hnb
  subst hna
  subst hnb
  show (if (if (bl.length == 1) = true then bl.headD 0 else 0) ≠ 0 then _ else _) = _
  have hc : (if (bl.length == 1) = true then bl.headD 0 else 0) ≠ 0 := by
    rw [if_pos (by simpa using hlen)]
    exact hd0
  rw [if_pos hc, if_pos (by simpa using hlen)]

theorem bnDivide_generic {a b : BN} {al bl : List Nat} (hbz : bnIsZero b = false)
    (haz : bnIsZero a = false) (hna : a.number = .limbs al) (hnb : b.number = .limbs bl)
    (hlen : bl.length ≠ 1) :
    bnDivide a b =
      ⟨.limbs (trimEnd (genLoop ⟨.limbs bl, 1, b.rest⟩ al.reverse bnZero).1.reverse),
        a.sign * b.sign,
        some ((genLoop ⟨.limbs bl, 1, b.rest⟩ al.reverse bnZero).2.number,
          (genLoop ⟨.limbs bl, 1, b.rest⟩ al.reverse bnZero).2.sign)⟩ := by
  unfold bnDivide
  rw [if_neg (by rw [hbz]; simp), if_neg (by rw [haz]; simp)]
  have hmatch : (match b.number with
      | .limbs bl => bl.length == 1 && bl.headD 0 == 1
      | .err _ => false) = false := by
    rw [hnb]
    simp [hlen]
  rw [if_neg (by rw [hmatch]; simp)]
  rcases a with ⟨na, sa, ra⟩
  rcases b with ⟨nb, sb, rb⟩
  simp only at hna hnb
  subst hna
  subst hnb
  show (if (if (bl.length == 1) = true then bl.headD 0 else 0) ≠ 0 then _ else _) = _
  rw [if_neg (by rw [show (bl.length == 1) = false from by simpa using hlen]; simp)]

theorem div_mod_unique {q r D v : Nat} (hD : 0 < D) (h : D * q + r = v) (hr : r < D) :
    v / D = q ∧ v % D = r := by
  subst h
  constructor
  · rw [Nat.mul_add_div hD, Nat.div_eq_of_lt hr]
    omega
  · rw [Nat.mul_add_mod, Nat.mod_eq_of_lt hr]

theorem limbs_reverse {l : List Nat} (h : Limbs l) : Limbs l.reverse :=
  fun x hx => h x (List.mem_reverse.mp hx)

theorem lVal_trimEnd_reverse (l : List Nat) : lVal (trimEnd l.reverse) = vM l := by
  rw [trimEnd_val, lVal_eq_vM_reverse, List.reverse_reverse]

theorem sign_mul_pm {x y : Int} (hx : x = 1 ∨ x = -1) (hy : y = 1 ∨ y = -1) :
    x * y = 1 ∨ x * y = -1 := by
  rcases hx with h | h <;> rcases hy with h' | h' <;> rw [h, h'] <;> norm_num

theorem bnDivide_spec {a b : BN} (ha : ValidBN a) (hb : ValidBN b)
    (hbz : bnIsZero b = false) :
    bnVal (bnDivide a b) =
      a.sign * b.sign * ((numbVal a.number / numbVal b.number : Nat) : Int) ∧
    ((2 ≤ numbVal b.number ∨ a.rest = none) →
      restVal (bnDivide a b).rest = ((numbVal a.number % numbVal b.number : Nat) : Int)) ∧
    ValidBN (bnDivide a b) := by
  obtain ⟨al, hna, hla, hca, hsa⟩ := validBN_elim ha
  obtain ⟨bl, hnb, hlb, hcb, hsb⟩ := validBN_elim hb
  have hbv : 0 < lVal bl := by
    rcases Nat.eq_zero_or_pos (lVal bl) with h0 | h
    · rw [bnIsZero_limbs hnb, (isZeroL_iff bl).mpr h0] at hbz
      exact absurd hbz (by simp)
    · exact h
  have hnumA : numbVal a.number = lVal al := by rw [hna]; rfl
  have hnumB : numbVal b.number = lVal bl := by rw [hnb]; rfl
  by_cases haz : bnIsZero a = true
  · rw [bnDivide_zero hbz haz]
    have hav : lVal al = 0 := by
      rw [bnIsZero_limbs hna] at haz
      exact (isZeroL_iff al).mp haz
    refine ⟨?_, fun _ => ?_, ?_⟩
    · rw [hnumA, hav]
      show (1 : Int) * (lVal [0] : Int) = _
      simp [lVal]
    · rw [hnumA, hav]
      show (0 : Int) = _
      simp
    · exact validBN_intro rfl (fun x hx => by
        simp at hx
        simp [hx, base_pos]) (Or.inl rfl) (Or.inl rfl)
  · have haz' : bnIsZero a = false := by
      revert haz
      cases bnIsZero a <;> simp
    have hav : 0 < lVal al := by
      rcases Nat.eq_zero_or_pos (lVal al) with h0 | h
      · rw [bnIsZero_limbs hna, (isZeroL_iff al).mpr h0] at haz'
        exact absurd haz' (by simp)
      · exact h
    have hane : al ≠ [] := by
      intro hc
      rw [hc] at hav
      simp [lVal] at hav
    by_cases hsk : bl.length = 1 ∧ bl.headD 0 = 1
    · have hbl1 : bl = [1] := by rw [length_one_eq hsk.1, hsk.2]
      have hv1 : lVal bl = 1 := by rw [hbl1]; simp [lVal_cons, lVal_nil]
      rw [bnDivide_one hbz haz' hnb (by rw [hbl1]; rfl)]
      refine ⟨?_, fun hp => ?_, ?_⟩
      · show a.sign * b.sign * (numbVal a.number : Int) = _
        rw [hnumB, hv1, Nat.div_one]
      · show restVal a.rest = _
        rcases hp with h2 | hrn
        · rw [hnumB, hv1] at h2
          omega
        · rw [hrn, hnumB, hv1, Nat.mod_one]
          rfl
      · exact validBN_intro hna hla hca (sign_mul_pm hsa hsb)
    · by_cases hlen : bl.length = 1
      · have hd1 : bl.headD 0 ≠ 1 := fun hx => hsk ⟨hlen, hx⟩
        rw [bnDivide_native hbz haz' hna hnb hlen hd1]
        have hbl : bl = [bl.headD 0] := length_one_eq hlen
        have hdv : lVal bl = bl.headD 0 := by
          rw [hbl]
          simp [lVal_cons, lVal_nil]
        have hd0 : 0 < bl.headD 0 := by omega
        obtain ⟨hval, hrlt, hqlen, hqlimbs⟩ :=
          nativeLoop_spec al.reverse 0 (bl.headD 0) hd0 hd0
        rw [zero_mul, zero_add, ← lVal_eq_vM_reverse] at hval
        obtain ⟨hdiv, hmod⟩ := div_mod_unique hd0 hval hrlt
        have hqne : (nativeLoop (bl.headD 0) al.reverse 0).1.reverse ≠ [] := by
          simp only [ne_eq, List.reverse_eq_nil_iff]
          intro hc
          rw [hc] at hqlen
          simp at hqlen
          exact hane (List.length_eq_zero.mp hqlen.symm)
        refine ⟨?_, fun _ => ?_, ?_⟩
        · show a.sign * b.sign *
            ((lVal (trimEnd (nativeLoop (bl.headD 0) al.reverse 0).1.reverse) : Nat) : Int) = _
          rw [lVal_trimEnd_reverse, hnumA, hnumB, hdv, hdiv]
        · show (1 : Int) *
            ((lVal (natLimbs (nativeLoop (bl.headD 0) al.reverse 0).2) : Nat) : Int) = _
          rw [one_mul, natLimbs_val, hnumA, hnumB, hdv, hmod]
        · refine validBN_intro rfl ?_ ?_ (sign_mul_pm hsa hsb)
          · exact trimEnd_limbs (limbs_reverse (hqlimbs (limbs_reverse hla)))
          · exact trimEnd_canon _ hqne
      · rw [bnDivide_generic hbz haz' hna hnb hlen]
        have hz0 : Limbs [0] := fun x hx => by
          simp at hx
          simp [hx, base_pos]
        obtain ⟨rl', hn', hs', hl', hc', hlt', hval', hlen', hql'⟩ :=
          genLoop_spec al.reverse ⟨.limbs bl, 1, b.rest⟩ bnZero bl [0]
            (limbs_reverse hla) rfl rfl hlb hcb hbv rfl rfl hz0 (Or.inl rfl)
            (by simpa [lVal] using hbv)
        rw [show lVal [0] = 0 from rfl, zero_mul, zero_add, ← lVal_eq_vM_reverse] at hval'
        obtain ⟨hdiv, hmod⟩ := div_mod_unique hbv hval' hlt'
        have hqne : (genLoop ⟨.limbs bl, 1, b.rest⟩ al.reverse bnZero).1.reverse ≠ [] := by
          simp only [ne_eq, List.reverse_eq_nil_iff]
          intro hc
          rw [hc] at hlen'
          simp at hlen'
          exact hane (List.length_eq_zero.mp hlen'.symm)
        refine ⟨?_, fun _ => ?_, ?_⟩
        · show a.sign * b.sign *
            ((lVal (trimEnd
              (genLoop ⟨.limbs bl, 1, b.rest⟩ al.reverse bnZero).1.reverse) : Nat) : Int) = _
          rw [lVal_trimEnd_reverse, hnumA, hnumB, hdiv]
        · show restVal (some _) = _
          show (genLoop ⟨.limbs bl, 1, b.rest⟩ al.reverse bnZero).2.sign *
            (numbVal (genLoop ⟨.limbs bl, 1, b.rest⟩ al.reverse bnZero).2.number : Int) = _
          rw [hs', hn', one_mul, hnumA, hnumB]
          show ((lVal rl' : Nat) : Int) = _
          rw [← hmod]
        · refine validBN_intro rfl ?_ ?_ (sign_mul_pm hsa hsb)
          · exact trimEnd_limbs (limbs_reverse hql')
          · exact trimEnd_canon _ hqne

theorem bnMultiply_val {a b : BN} {al bl : List Nat}
    (hna : a.number = .limbs al) (hnb : b.number = .limbs bl) :
    bnVal (bnMultiply a b) = bnVal a * bnVal b := by
  unfold bnMultiply
  by_cases hz : (bnIsZero a || bnIsZero b) = true
  · rw [if_pos hz]
    have hz' : lVal al = 0 ∨ lVal bl = 0 := by
      rcases Bool.or_eq_true_iff.mp hz with h | h
      · left
        rw [bnIsZero_limbs hna] at h
        exact (isZeroL_iff al).mp h
      · right
        rw [bnIsZero_limbs hnb] at h
        exact (isZeroL_iff bl).mp h
    have hlhs : bnVal bnZero = 0 := by
      show (1 : Int) * ((lVal [0] : Nat) : Int) = 0
      simp [lVal]
    rw [hlhs]
    unfold bnVal
    rw [hna, hnb]
    show (0 : Int) = a.sign * ((lVal al : Nat) : Int) * (b.sign * ((lVal bl : Nat) : Int))
    rcases hz' with h | h <;> rw [h] <;> push_cast <;> ring
  · rw [if_neg hz]
    show a.sign * b.sign * ((numbVal (numbMul a.number b.number) : Nat) : Int) = _
    rw [hna, hnb]
    show a.sign * b.sign * ((lVal (mulLoop al bl []) : Nat) : Int) = _
    rw [mulLoop_val]
    unfold bnVal
    rw [hna, hnb]
    show a.sign * b.sign * ((lVal al * lVal bl + lVal [] : Nat) : Int) =
      a.sign * ((lVal al : Nat) : Int) * (b.sign * ((lVal bl : Nat) : Int))
    rw [lVal_nil]
    push_cast
    ring

theorem bnMultiplyRecv_spec {a b : BN} {al bl : List Nat}
    (hna : a.number = .limbs al) (hnb : b.number = .limbs bl) (hbnz : lVal bl ≠ 0) :
    ∃ cl, (bnMultiplyRecv a b).number = .limbs cl ∧ lVal cl = lVal al * lVal bl ∧
      ((lVal al = 0 ∧ (bnMultiplyRecv a b).sign = a.sign) ∨
        (bnMultiplyRecv a b).sign = a.sign * b.sign) ∧
      (bnMultiplyRecv a b).rest = a.rest := by
  have hbz : bnIsZero b = false := by
    rw [bnIsZero_limbs hnb]
    cases h : isZeroL bl
    · rfl
    · exact absurd ((isZeroL_iff bl).mp h) hbnz
  unfold bnMultiplyRecv
  by_cases haz : bnIsZero a = true
  · rw [if_pos (by rw [haz, hbz]; rfl)]
    have hav : lVal al = 0 := by
      rw [bnIsZero_limbs hna] at haz
      exact (isZeroL_iff al).mp haz
    exact ⟨al, hna, by rw [hav, Nat.zero_mul], Or.inl ⟨hav, rfl⟩, rfl⟩
  · have haz' : bnIsZero a = false := by
      revert haz
      cases bnIsZero a <;> simp
    rw [if_neg (by rw [haz', hbz]; simp)]
    unfold bnMultiply
    rw [if_neg (by rw [haz', hbz]; simp)]
    refine ⟨mulLoop al bl [], ?_, ?_, Or.inr rfl, rfl⟩
    · show numbMul a.number b.number = _
      rw [hna, hnb]
      rfl
    · rw [mulLoop_val, lVal_nil]
      omega

theorem bnMultiplyRecv_val {a b : BN} {al bl : List Nat}
    (hna : a.number = .limbs al) (hnb : b.number = .limbs bl) (hbnz : lVal bl ≠ 0) :
    bnVal (bnMultiplyRecv a b) = bnVal a * bnVal b := by
  obtain ⟨cl, hn, hv, hs, _⟩ := bnMultiplyRecv_spec hna hnb hbnz
  unfold bnVal
  rw [hn, hna, hnb]
  simp only [numbVal]
  rw [hv]
  rcases hs with ⟨h0, hs⟩ | hs <;> rw [hs]
  · rw [h0]
    push_cast
    ring
  · push_cast
    ring

theorem powLoop_spec : ∀ (fuel n : Nat) (acc bg : BN) (cl gl : List Nat),
    acc.number = .limbs cl → bg.number = .limbs gl → lVal gl ≠ 0 →
    (acc.sign = 1 ∨ acc.sign = -1) → (bg.sign = 1 ∨ bg.sign = -1) →
    n < fuel →
    bnVal (powLoop fuel n acc bg) = bnVal acc * (bnVal bg) ^ n ∧
    (powLoop fuel n acc bg).rest = acc.rest ∧
    ∃ dl, (powLoop fuel n acc bg).number = .limbs dl := by
  intro fuel
  induction fuel with
  | zero =>
    intro n acc bg cl gl _ _ _ _ _ hf
    omega
  | succ f ih =>
    intro n acc bg cl gl hnc hng hgnz hsc hsg hf
    by_cases hn0 : n = 0
    · rw [hn0]
      show bnVal acc = bnVal acc * bnVal bg ^ (0 : Nat) ∧ acc.rest = acc.rest ∧ _
      refine ⟨by rw [pow_zero, mul_one], rfl, cl, hnc⟩
    · by_cases hodd : n % 2 = 1
      · have hstep : powLoop (f + 1) n acc bg = powLoop f (n - 1) (bnMultiplyRecv acc bg) bg := by
          show (if n = 0 then acc
            else if n % 2 = 1 then powLoop f (n - 1) (bnMultiplyRecv acc bg) bg
            else powLoop f (n / 2) acc (bnMultiplyRecv bg bg)) = _
          rw [if_neg hn0, if_pos hodd]
        rw [hstep]
        obtain ⟨cl', hn', hv', hs', hr'⟩ := bnMultiplyRecv_spec hnc hng hgnz
        have hs'' : (bnMultiplyRecv acc bg).sign = 1 ∨ (bnMultiplyRecv acc bg).sign = -1 := by
          rcases hs' with ⟨_, h⟩ | h <;> rw [h]
          · exact hsc
          · exact sign_mul_pm hsc hsg
        obtain ⟨hval, hrest, hshape⟩ :=
          ih (n - 1) (bnMultiplyRecv acc bg) bg cl' gl hn' hng hgnz hs'' hsg (by omega)
        refine ⟨?_, by rw [hrest, hr'], hshape⟩
        rw [hval, bnMultiplyRecv_val hnc hng hgnz]
        have hns : n - 1 + 1 = n := by omega
        have hp : bnVal bg ^ n = bnVal bg ^ (n - 1) * bnVal bg := by
          rw [← pow_succ, hns]
        rw [hp]
        ring
      · have heven : n % 2 = 0 := by omega
        have hstep : powLoop (f + 1) n acc bg = powLoop f (n / 2) acc (bnMultiplyRecv bg bg) := by
          show (if n = 0 then acc
            else if n % 2 = 1 then powLoop f (n - 1) (bnMultiplyRecv acc bg) bg
            else powLoop f (n / 2) acc (bnMultiplyRecv bg bg)) = _
          rw [if_neg hn0, if_neg (by omega)]
        rw [hstep]
        obtain ⟨gl', hn', hv', hs', hr'⟩ := bnMultiplyRecv_spec hng hng hgnz
        have hgnz' : lVal gl' ≠ 0 := by
          rw [hv']
          exact Nat.mul_ne_zero hgnz hgnz
        have hs'' : (bnMultiplyRecv bg bg).sign = 1 ∨ (bnMultiplyRecv bg bg).sign = -1 := by
          rcases hs' with ⟨h0, _⟩ | h
          · exact absurd h0 hgnz
          · rw [h]
            exact sign_mul_pm hsg hsg
        have hfn : n / 2 < f := by
          have h1 : n / 2 < n := Nat.div_lt_self (by omega) (by omega)
          omega
        obtain ⟨hval, hrest, hshape⟩ :=
          ih (n / 2) acc (bnMultiplyRecv bg bg) cl gl' hnc hn' hgnz' hsc hs'' hfn
        refine ⟨?_, hrest, hshape⟩
        rw [hval, bnMultiplyRecv_val hng hng hgnz]
        have hsq : bnVal bg * bnVal bg = bnVal bg ^ (2 : Nat) := by ring
        rw [hsq, ← pow_mul]
        have h2 : 2 * (n / 2) = n := Nat.two_mul_div_two_of_even (Nat.even_iff.mpr heven)
        rw [h2]

theorem powLoop_zero : ∀ (fuel n : Nat) (acc bg : BN),
    bnIsZero bg = true → n < fuel → powLoop fuel n acc bg = acc := by
  intro fuel
  induction fuel with
  | zero => intro n acc bg _ hf; omega
  | succ f ih =>
    intro n acc bg hz hf
    by_cases hn0 : n = 0
    · rw [hn0]
      rfl
    · have hra : bnMultiplyRecv acc bg = acc := by
        unfold bnMultiplyRecv
        rw [if_pos (by rw [hz]; simp)]
      have hrb : bnMultiplyRecv bg bg = bg := by
        unfold bnMultiplyRecv
        rw [if_pos (by rw [hz]; simp)]
      show (if n = 0 then acc
        else if n % 2 = 1 then powLoop f (n - 1) (bnMultiplyRecv acc bg) bg
        else powLoop f (n / 2) acc (bnMultiplyRecv bg bg)) = acc
      rw [if_neg hn0, hra, hrb]
      by_cases hodd : n % 2 = 1
      · rw [if_pos hodd]
        exact ih (n - 1) acc bg hz (by omega)
      · rw [if_neg hodd]
        exact ih (n / 2) acc bg hz
          (by have := Nat.div_lt_self (by omega : 0 < n) (by omega : 1 < 2); omega)

theorem bnPower_spec {a : BN} {al : List Nat} {n : Nat} (hna : a.number = .limbs al)
    (hsa : a.sign = 1 ∨ a.sign = -1) (hn : 2 ≤ n) (hnz : lVal al ≠ 0) :
    bnVal (bnPower a n) = a.sign * (bnVal a) ^ n ∧ (bnPower a n).rest = a.rest := by
  unfold bnPower
  rw [if_neg (by omega), if_neg (by omega)]
  have hshape : ({ a with number := .limbs [1] } : BN).number = .limbs [1] := rfl
  obtain ⟨hval, hrest, _⟩ :=
    powLoop_spec (n + 1) n { a with number := .limbs [1] } a [1] al hshape hna hnz hsa hsa
      (by omega)
  refine ⟨?_, hrest⟩
  rw [hval]
  have h1 : bnVal { a with number := .limbs [1] } = a.sign := by
    show a.sign * ((lVal [1] : Nat) : Int) = a.sign
    norm_num [lVal_cons, lVal_nil]
  rw [h1]

theorem bnPower_zero {a : BN} {al : List Nat} {n : Nat} (hna : a.number = .limbs al)
    (hn : 2 ≤ n) (hz : lVal al = 0) :
    bnPower a n = { a with number := .limbs [1] } := by
  unfold bnPower
  rw [if_neg (by omega), if_neg (by omega)]
  exact powLoop_zero (n + 1) n _ a (by rw [bnIsZero_limbs hna]; exact (isZeroL_iff al).mpr hz)
    (by omega)

theorem natLimbs_ten : natLimbs 10 = [10] :=
  natLimbs_small (by norm_num) (by rw [base_eq]; norm_num)

theorem divTen_step {l : List Nat} (hnz : lVal l ≠ 0) :
    (bnDivide ⟨.limbs l, 1, none⟩ (bnOfNat 10)).number =
      .limbs (trimEnd (nativeLoop 10 l.reverse 0).1.reverse) ∧
    lVal (trimEnd (nativeLoop 10 l.reverse 0).1.reverse) = lVal l / 10 ∧
    (bnDivide ⟨.limbs l, 1, none⟩ (bnOfNat 10)).rest =
      some (.limbs (natLimbs (lVal l % 10)), 1) := by
  have hnb10 : (bnOfNat 10).number = .limbs [10] := by
    show Numb.limbs (natLimbs 10) = _
    rw [natLimbs_ten]
  have hbz : bnIsZero (bnOfNat 10) = false := by
    rw [bnIsZero_limbs hnb10]
    rfl
  have haz : bnIsZero (⟨.limbs l, 1, none⟩ : BN) = false := by
    rw [bnIsZero_limbs rfl]
    cases h : isZeroL l
    · rfl
    · exact absurd ((isZeroL_iff l).mp h) hnz
  have hbr := bnDivide_native hbz haz rfl hnb10 rfl (by decide)
  simp only [List.headD_cons] at hbr
  rw [hbr]
  obtain ⟨hval, hrlt, _, _⟩ := nativeLoop_spec l.reverse 0 10 (by norm_num) (by norm_num)
  rw [zero_mul, zero_add, ← lVal_eq_vM_reverse] at hval
  obtain ⟨hdiv, hmod⟩ := div_mod_unique (by norm_num) hval hrlt
  refine ⟨rfl, ?_, ?_⟩
  · rw [lVal_trimEnd_reverse, hdiv]
  · rw [hmod]

theorem sd_natLimbs {m : Nat} (hm : m < 10) :
    singleDigitStr (.limbs (natLimbs m)) = Nat.repr m := by
  by_cases h0 : m = 0
  · subst h0
    rfl
  · rw [natLimbs_small (by omega) (by rw [base_eq]; omega)]
    show (if sdLoop [m] 0 1 < 10 then Nat.repr (sdLoop [m] 0 1) else "") = _
    have hsd : sdLoop [m] 0 1 = m := by
      show (if (0 : Nat) < 10 then sdLoop [] (0 + 1 * m) (1 * base) else 0) = m
      rw [if_pos (by norm_num)]
      show 0 + 1 * m = m
      omega
    rw [hsd, if_pos hm]

theorem decStr_zero : decStr 0 = "" := by
  simp [decStr]

theorem decStr_succ (n : Nat) :
    decStr (n + 1) = decStr ((n + 1) / 10) ++ Nat.repr ((n + 1) % 10) := by
  rw [decStr]

theorem decStr_pos {n : Nat} (h : 0 < n) :
    decStr n = decStr (n / 10) ++ Nat.repr (n % 10) := by
  cases n with
  | zero => omega
  | succ m => exact decStr_succ m

theorem repr_digit_ne : ∀ m : Nat, m < 10 → (Nat.repr m).data ≠ [] := by
  decide

theorem decStr_ne {n : Nat} (h : 0 < n) : decStr n ≠ "" := by
  rw [decStr_pos h]
  intro hcon
  have hd := congrArg String.data hcon
  rw [String.data_append] at hd
  have := List.append_eq_nil.mp hd
  exact repr_digit_ne (n % 10) (Nat.mod_lt _ (by norm_num)) this.2

theorem toStrLoop_spec : ∀ (fuel : Nat) (l : List Nat), lVal l < fuel →
    toStrLoop fuel l = decStr (lVal l) := by
  intro fuel
  induction fuel with
  | zero => intro l hf; omega
  | succ f ih =>
    intro l hf
    by_cases hz : lVal l = 0
    · show (if isZeroL l then "" else _) = _
      rw [if_pos ((isZeroL_iff l).mpr hz), hz, decStr_zero]
    · have hz' : isZeroL l = false := by
        cases h : isZeroL l
        · rfl
        · exact absurd ((isZeroL_iff l).mp h) hz
      show (if isZeroL l then "" else
        toStrLoop f (match (bnDivide ⟨.limbs l, 1, none⟩ (bnOfNat 10)).number with
          | .limbs q => q | .err _ => []) ++
        (match (bnDivide ⟨.limbs l, 1, none⟩ (bnOfNat 10)).rest with
          | some r => singleDigitStr r.1 | none => "")) = _
      rw [if_neg (by rw [hz']; simp)]
      obtain ⟨hq, hqv, hr⟩ := divTen_step hz
      rw [hq, hr]
      have hm1 : (match Numb.limbs (trimEnd (nativeLoop 10 l.reverse 0).1.reverse) with
          | Numb.limbs q => q | Numb.err _ => ([] : List Nat)) =
          trimEnd (nativeLoop 10 l.reverse 0).1.reverse := rfl
      have hm2 : (match some (Numb.limbs (natLimbs (lVal l % 10)), (1 : Int)) with
          | some r => singleDigitStr r.1 | none => "") =
          singleDigitStr (Numb.limbs (natLimbs (lVal l % 10))) := rfl
      rw [hm1, hm2, sd_natLimbs (Nat.mod_lt _ (by norm_num))]
      have hlt : lVal l / 10 < f :=
        lt_of_lt_of_le (Nat.div_lt_self (by omega) (by norm_num)) (by omega)
      rw [ih (trimEnd (nativeLoop 10 l.reverse 0).1.reverse) (by rw [hqv]; exact hlt), hqv]
      rw [show decStr (lVal l) = decStr (lVal l / 10) ++ Nat.repr (lVal l % 10) from
        decStr_pos (by omega)]

theorem bnToString_limbs {v : BN} {l : List Nat} (hn : v.number = .limbs l) :
    bnToString v = (if v.sign > 0 then (if lVal l = 0 then "0" else decStr (lVal l))
      else "-" ++ (if lVal l = 0 then "0" else decStr (lVal l))) := by
  unfold bnToString
  rw [hn]
  show (let str := toStrLoop (lVal l + 1) l
        let str2 := if str = "" then "0" else str
        if v.sign > 0 then str2 else "-" ++ str2) = _
  rw [toStrLoop_spec (lVal l + 1) l (by omega)]
  by_cases h0 : lVal l = 0
  · rw [h0, decStr_zero]
    rfl
  · show (if v.sign > 0 then (if decStr (lVal l) = "" then "0" else decStr (lVal l))
      else "-" ++ (if decStr (lVal l) = "" then "0" else decStr (lVal l))) =
      (if v.sign > 0 then (if lVal l = 0 then "0" else decStr (lVal l))
      else "-" ++ (if lVal l = 0 then "0" else decStr (lVal l)))
    rw [if_neg (decStr_ne (by omega)), if_neg h0]

theorem digit_toNat {c : Char} (h : c.isDigit = true) : 48 ≤ c.toNat ∧ c.toNat ≤ 57 := by
  simp [Char.isDigit] at h
  exact h

theorem digit_cases {c : Char} (h : c.isDigit = true) :
    ∃ k, 48 ≤ k ∧ k ≤ 57 ∧ c = Char.ofNat k :=
  ⟨c.toNat, (digit_toNat h).1, (digit_toNat h).2, (Char.ofNat_toNat c).symm⟩

theorem repr_char {c : Char} (h : c.isDigit = true) :
    Nat.repr (parseDigit c) = String.mk [c] := by
  obtain ⟨k, h1, h2, hc⟩ := digit_cases h
  subst hc
  interval_cases k <;> decide

theorem digit_zero {c : Char} (h : c.isDigit = true) : parseDigit c = 0 ↔ c = '0' := by
  obtain ⟨k, h1, h2, hc⟩ := digit_cases h
  subst hc
  interval_cases k <;> decide

theorem parseDigit_lt {c : Char} (h : c.isDigit = true) : parseDigit c < 10 := by
  obtain ⟨h1, h2⟩ := digit_toNat h
  unfold parseDigit
  omega

theorem bnMultiply_shape {a b : BN} {al bl : List Nat}
    (hna : a.number = .limbs al) (hnb : b.number = .limbs bl)
    (hsa : a.sign = 1) (hsb : b.sign = 1) :
    ∃ cl, (bnMultiply a b).number = .limbs cl ∧ lVal cl = lVal al * lVal bl ∧
      (bnMultiply a b).sign = 1 := by
  unfold bnMultiply
  by_cases hz : (bnIsZero a || bnIsZero b) = true
  · rw [if_pos hz]
    refine ⟨[0], rfl, ?_, rfl⟩
    have hz' : lVal al = 0 ∨ lVal bl = 0 := by
      rcases Bool.or_eq_true_iff.mp hz with h | h
      · left
        rw [bnIsZero_limbs hna] at h
        exact (isZeroL_iff al).mp h
      · right
        rw [bnIsZero_limbs hnb] at h
        exact (isZeroL_iff bl).mp h
    show lVal [0] = _
    rcases hz' with h | h <;> rw [h] <;> simp [lVal]
  · rw [if_neg hz]
    refine ⟨mulLoop al bl [], ?_, ?_, ?_⟩
    · show numbMul a.number b.number = _
      rw [hna, hnb]
      rfl
    · rw [mulLoop_val, lVal_nil]
      omega
    · show a.sign * b.sign = 1
      rw [hsa, hsb]
      norm_num

theorem bnAddRecv_same {a b : BN} {al bl : List Nat}
    (hna : a.number = .limbs al) (hnb : b.number = .limbs bl)
    (hsa : a.sign = 1) (hsb : b.sign = 1) :
    bnAddRecv a b = { a with number := .limbs (addLoop al bl 0) } := by
  unfold bnAddRecv
  rw [if_neg (by rw [hsa, hsb]; simp)]
  rw [show numbAdd a.number b.number = .limbs (addLoop al bl 0) from by
    rw [hna, hnb]
    rfl]

theorem createLoop_spec : ∀ (cs : List Char) (acc mot : BN) (a_l m_l : List Nat),
    acc.number = .limbs a_l → acc.sign = 1 → mot.number = .limbs m_l → mot.sign = 1 →
    lVal m_l ≠ 0 → (∀ c ∈ cs, c.isDigit = true) →
    ∃ r_l, (createLoop cs acc mot).number = .limbs r_l ∧
      lVal r_l = lVal a_l + lVal m_l * revVal cs ∧
      (createLoop cs acc mot).sign = 1 ∧ (createLoop cs acc mot).rest = acc.rest := by
  intro cs
  induction cs with
  | nil =>
    intro acc mot a_l m_l hna hsa _ _ _ _
    refine ⟨a_l, hna, ?_, hsa, rfl⟩
    show lVal a_l = lVal a_l + lVal m_l * revVal []
    show lVal a_l = lVal a_l + lVal m_l * 0
    rw [Nat.mul_zero]
    omega
  | cons c cs ih =>
    intro acc mot a_l m_l hna hsa hnm hsm hm hdig
    have hc : c.isDigit = true := hdig c (by simp)
    have hstep : createLoop (c :: cs) acc mot =
        createLoop cs (bnAddRecv acc (bnMultiply (bnOfNat (parseDigit c)) mot))
          (bnMultiplyRecv mot (bnOfNat 10)) := by
      show (if c.isDigit = true then _ else _) = _
      rw [if_pos hc]
    rw [hstep]
    obtain ⟨x_l, hx_n, hx_v, hx_s⟩ := bnMultiply_shape
      (show (bnOfNat (parseDigit c)).number = .limbs (natLimbs (parseDigit c)) from rfl) hnm
      (show (bnOfNat (parseDigit c)).sign = 1 from rfl) hsm
    have hadd := bnAddRecv_same hna hx_n hsa hx_s
    obtain ⟨m_l2, hm_n, hm_v, hm_s, _⟩ :=
      bnMultiplyRecv_spec hnm (show (bnOfNat 10).number = .limbs (natLimbs 10) from rfl)
        (by rw [natLimbs_val]; norm_num)
    have hm_s1 : (bnMultiplyRecv mot (bnOfNat 10)).sign = 1 := by
      rcases hm_s with ⟨h0, _⟩ | h
      · exact absurd h0 hm
      · rw [h, hsm]
        rfl
    have hm2nz : lVal m_l2 ≠ 0 := by
      rw [hm_v, natLimbs_val]
      exact Nat.mul_ne_zero hm (by norm_num)
    obtain ⟨r_l, hr_n, hr_v, hr_s, hr_r⟩ :=
      ih (bnAddRecv acc (bnMultiply (bnOfNat (parseDigit c)) mot))
        (bnMultiplyRecv mot (bnOfNat 10)) (addLoop a_l x_l 0) m_l2
        (by rw [hadd]) (by rw [hadd]; exact hsa) hm_n hm_s1 hm2nz
        (fun d hd => hdig d (by simp [hd]))
    refine ⟨r_l, hr_n, ?_, hr_s, by rw [hr_r, hadd]⟩
    rw [hr_v, addLoop_val, hx_v, natLimbs_val, hm_v, natLimbs_val]
    show _ = lVal a_l + lVal m_l * (parseDigit c + 10 * revVal cs)
    ring

theorem createStr_eq {s : String} (hne : ¬ s = "") :
    createStr s =
      (match (createLoop (if (s.data.headD ' ' == '-' || s.data.headD ' ' == '+')
          then s.data.tail else s.data).reverse ⟨.limbs [], 1, none⟩ (bnOfNat 1)).number with
        | .err e => { createLoop (if (s.data.headD ' ' == '-' || s.data.headD ' ' == '+')
            then s.data.tail else s.data).reverse ⟨.limbs [], 1, none⟩ (bnOfNat 1) with
            number := .err e }
        | .limbs l => { createLoop (if (s.data.headD ' ' == '-' || s.data.headD ' ' == '+')
            then s.data.tail else s.data).reverse ⟨.limbs [], 1, none⟩ (bnOfNat 1) with
            number := .limbs l, sign := if (s.data.headD ' ' == '-') then -1 else 1 }) := by
  unfold createStr
  rw [if_neg hne]

theorem createStr_spec {s : String} (hne : ¬ s = "")
    (hdig : ∀ c ∈ (if (s.data.headD ' ' == '-' || s.data.headD ' ' == '+')
      then s.data.tail else s.data), c.isDigit = true) :
    ∃ r_l, (createStr s).number = .limbs r_l ∧
      lVal r_l = revVal (if (s.data.headD ' ' == '-' || s.data.headD ' ' == '+')
        then s.data.tail else s.data).reverse ∧
      (createStr s).sign = (if (s.data.headD ' ' == '-') then (-1 : Int) else 1) ∧
      (createStr s).rest = none := by
  obtain ⟨r_l, h_n, h_v, h_s, h_r⟩ :=
    createLoop_spec (if (s.data.headD ' ' == '-' || s.data.headD ' ' == '+')
        then s.data.tail else s.data).reverse
      ⟨.limbs [], 1, none⟩ (bnOfNat 1) [] (natLimbs 1) rfl rfl
      (show (bnOfNat 1).number = .limbs (natLimbs 1) from rfl) rfl
      (by rw [natLimbs_val]; norm_num)
      (fun c hc => hdig c (List.mem_reverse.mp hc))
  rw [createStr_eq hne, h_n]
  refine ⟨r_l, rfl, ?_, ?_, h_r⟩
  · rw [h_v, natLimbs_val]
    show lVal [] + 1 * _ = _
    rw [lVal_nil]
    omega
  · rfl

theorem revVal_reverse_append (t : List Char) (c : Char) :
    revVal ((t ++ [c]).reverse) = parseDigit c + 10 * revVal t.reverse := by
  rw [List.reverse_append]
  rfl

theorem revVal_zero_iff : ∀ cs : List Char, (∀ c ∈ cs, c.isDigit = true) →
    (revVal cs = 0 ↔ ∀ c ∈ cs, c = '0') := by
  intro cs
  induction cs with
  | nil => intro _; simp [revVal]
  | cons c cs ih =>
    intro hdig
    have hc : c.isDigit = true := hdig c (by simp)
    have ih' := ih (fun d hd => hdig d (by simp [hd]))
    constructor
    · intro h0
      have h1 : parseDigit c = 0 ∧ revVal cs = 0 := by
        have : parseDigit c + 10 * revVal cs = 0 := h0
        omega
      intro d hd
      rcases List.mem_cons.mp hd with h | h
      · rw [h]
        exact (digit_zero hc).mp h1.1
      · exact ih'.mp h1.2 d h
    · intro hall
      have h1 : parseDigit c = 0 := (digit_zero hc).mpr (hall c (by simp))
      have h2 : revVal cs = 0 := ih'.mpr (fun d hd => hall d (by simp [hd]))
      show parseDigit c + 10 * revVal cs = 0
      omega

theorem mk_append (xs ys : List Char) :
    String.mk xs ++ String.mk ys = String.mk (xs ++ ys) := rfl

theorem dec_repr : ∀ t : List Char, (∀ c ∈ t, c.isDigit = true) →
    decStr (revVal t.reverse) = String.mk (t.dropWhile (· == '0')) := by
  intro t
  induction t using List.reverseRecOn with
  | nil =>
    intro _
    rw [show revVal ([] : List Char).reverse = 0 from rfl, decStr_zero]
    rfl
  | append_singleton t c ih =>
    intro hdig
    have hc : c.isDigit = true := hdig c (by simp)
    have hdt : ∀ d ∈ t, d.isDigit = true := fun d hd => hdig d (by simp [hd])
    rw [revVal_reverse_append]
    by_cases hN : parseDigit c + 10 * revVal t.reverse = 0
    · have h1 : parseDigit c = 0 := by omega
      have h2 : revVal t.reverse = 0 := by omega
      rw [hN, decStr_zero]
      have hall : ∀ d ∈ t ++ [c], (d == '0') = true := by
        intro d hd
        rcases List.mem_append.mp hd with h | h
        · have := (revVal_zero_iff t.reverse
            (fun e he => hdt e (List.mem_reverse.mp he))).mp h2 d (List.mem_reverse.mpr h)
          simp [this]
        · simp at h
          rw [h]
          simp [(digit_zero hc).mp h1]
      rw [List.dropWhile_eq_nil_iff.mpr hall]
    · obtain ⟨hdiv, hmod⟩ := div_mod_unique (show (0 : Nat) < 10 by norm_num)
        (show 10 * revVal t.reverse + parseDigit c = parseDigit c + 10 * revVal t.reverse from
          by ring) (parseDigit_lt hc)
      rw [decStr_pos (by omega), hdiv, hmod, ih hdt, repr_char hc, mk_append]
      by_cases hz : t.dropWhile (· == '0') = []
      · have hz' : revVal t.reverse = 0 :=
          (revVal_zero_iff t.reverse (fun e he => hdt e (List.mem_reverse.mp he))).mpr
            (fun d hd => by
              have := List.dropWhile_eq_nil_iff.mp hz d (List.mem_reverse.mp hd)
              simpa using this)
        have hc0 : (c == '0') = false := by
          cases hb : (c == '0')
          · rfl
          · have hcq : c = '0' := by simpa using hb
            have := (digit_zero hc).mpr hcq
            omega
        rw [hz, List.dropWhile_append, hz]
        show String.mk ([] ++ [c]) = String.mk (List.dropWhile (· == '0') [c])
        rw [List.nil_append, List.dropWhile_cons, hc0]
        rfl
      · rw [List.dropWhile_append]
        have hie : (t.dropWhile (· == '0')).isEmpty = false := by
          cases h : (t.dropWhile (· == '0')).isEmpty
          · rfl
          · exact absurd (List.isEmpty_iff.mp h) hz
        rw [hie]
        rfl

theorem largestPow2Sq_def (m : Nat) : largestPow2Sq m = 2 ^ Nat.log 2 (Nat.sqrt m) := rfl

theorem maxExactNative_eq : maxExactNative = 2 ^ 53 := rfl

theorem sqrt_maxExact_log : Nat.log 2 (Nat.sqrt (2 ^ 53)) = 26 :=
  Nat.log_eq_of_pow_le_of_lt_pow (Nat.le_sqrt.mpr (by norm_num))
    (Nat.sqrt_lt.mpr (by norm_num))

theorem largestPow2Sq_max : largestPow2Sq maxExactNative = 2 ^ 26 := by
  rw [largestPow2Sq_def, maxExactNative_eq, sqrt_maxExact_log]

theorem errString_compare {a : BN} {la : List Nat} {s : String} {sg : Int}
    {r : Option (Numb × Int)} (hna : a.number = .limbs la) (hsg : a.sign = sg)
    (hlen : la.length < s.length) :
    bnCompare a ⟨.err s, sg, r⟩ = a.sign * (-1) := by
  unfold bnCompare
  rw [if_neg (by rw [hsg]; simp)]
  have h1 : numbLen a.number = la.length := by rw [hna]; rfl
  have h2 : numbLen (⟨.err s, sg, r⟩ : BN).number = s.length := rfl
  rw [h1, h2, if_neg (by omega), if_pos (by omega)]

theorem canon_val_one {bl : List Nat} (hlb : Limbs bl) (hcb : Canon bl)
    (hv : lVal bl = 1) : bl = [1] := by
  have h := canon_val_inj hlb (show Limbs [1] from by
      intro x hx
      simp at hx
      rw [hx]
      rw [base_eq]
      norm_num) hcb (canon_singleton 1)
  apply h
  rw [hv]
  show 1 = 1 + base * 0
  omega

theorem canon_ne_nil {l : List Nat} (hc : Canon l) : l ≠ [] := by
  rcases hc with h | ⟨h, _⟩ <;> simp [h]

theorem native_generic_loops (r : Option (Numb × Int)) {al bl : List Nat}
    (hla : Limbs al) (hca : Canon al) (hlb : Limbs bl) (hcb : Canon bl)
    (hlen : bl.length = 1) (hd2 : 2 ≤ lVal bl) :
    trimEnd (nativeLoop (bl.headD 0) al.reverse 0).1.reverse =
      trimEnd (genLoop ⟨.limbs bl, 1, r⟩ al.reverse bnZero).1.reverse ∧
    (genLoop ⟨.limbs bl, 1, r⟩ al.reverse bnZero).2.number =
      .limbs (natLimbs (nativeLoop (bl.headD 0) al.reverse 0).2) ∧
    (genLoop ⟨.limbs bl, 1, r⟩ al.reverse bnZero).2.sign = 1 := by
  have hbl : bl = [bl.headD 0] := length_one_eq hlen
  have hdv : lVal bl = bl.headD 0 := by
    rw [hbl]
    simp [lVal_cons, lVal_nil]
  have hd0 : 0 < bl.headD 0 := by omega
  have hane : al ≠ [] := canon_ne_nil hca
  obtain ⟨hvalN, hrltN, hqlenN, hqlimbsN⟩ :=
    nativeLoop_spec al.reverse 0 (bl.headD 0) hd0 hd0
  rw [zero_mul, zero_add, ← lVal_eq_vM_reverse] at hvalN
  obtain ⟨hdivN, hmodN⟩ := div_mod_unique hd0 hvalN hrltN
  have hz0 : Limbs [0] := fun x hx => by
    simp at hx
    simp [hx, base_pos]
  obtain ⟨rl', hn', hs', hl', hc', hlt', hval', hlen', hql'⟩ :=
    genLoop_spec al.reverse ⟨.limbs bl, 1, r⟩ bnZero bl [0]
      (limbs_reverse hla) rfl rfl hlb hcb (by omega) rfl rfl hz0 (Or.inl rfl)
      (by simp [lVal]; omega)
  rw [show lVal [0] = 0 from rfl, zero_mul, zero_add, ← lVal_eq_vM_reverse] at hval'
  obtain ⟨hdivG, hmodG⟩ := div_mod_unique (by omega) hval' hlt'
  have hqneN : (nativeLoop (bl.headD 0) al.reverse 0).1.reverse ≠ [] := by
    simp only [ne_eq, List.reverse_eq_nil_iff]
    intro hc
    rw [hc] at hqlenN
    simp at hqlenN
    exact hane (List.length_eq_zero.mp hqlenN.symm)
  have hqneG : (genLoop ⟨.limbs bl, 1, r⟩ al.reverse bnZero).1.reverse ≠ [] := by
    simp only [ne_eq, List.reverse_eq_nil_iff]
    intro hc
    rw [hc] at hlen'
    simp at hlen'
    exact hane (List.length_eq_zero.mp hlen'.symm)
  have hquot : trimEnd (nativeLoop (bl.headD 0) al.reverse 0).1.reverse =
      trimEnd (genLoop ⟨.limbs bl, 1, r⟩ al.reverse bnZero).1.reverse := by
    apply canon_val_inj (trimEnd_limbs (limbs_reverse (hqlimbsN (limbs_reverse hla))))
      (trimEnd_limbs (limbs_reverse hql')) (trimEnd_canon _ hqneN) (trimEnd_canon _ hqneG)
    rw [lVal_trimEnd_reverse, lVal_trimEnd_reverse, ← hdivN, ← hdivG, hdv]
  have hrest : natLimbs (nativeLoop (bl.headD 0) al.reverse 0).2 = rl' := by
    apply canon_val_inj (natLimbs_limbs _) hl' (natLimbs_canon _) hc'
    rw [natLimbs_val, ← hmodN, ← hmodG, hdv]
  refine ⟨hquot, ?_, hs'⟩
  rw [hn', hrest]

theorem divide_by_one_rest {a b : BN} {bl : List Nat} (hbz : bnIsZero b = false)
    (haz : bnIsZero a = false) (hnb : b.number = .limbs bl) (hlb : Limbs bl)
    (hcb : Canon bl) (hv1 : lVal bl = 1) :
    bnDivide a b = { a with sign := a.sign * b.sign } := by
  have hbl : bl = [1] := canon_val_one hlb hcb hv1
  exact bnDivide_one hbz haz hnb (by rw [hbl]; rfl)

theorem specNormalize_eq (s : String) :
    specNormalize s =
      (if (if (s.data.headD ' ' == '-' || s.data.headD ' ' == '+')
          then s.data.tail else s.data).dropWhile (· == '0') = [] then "0"
       else if (s.data.headD ' ' == '-')
          then "-" ++ String.mk ((if (s.data.headD ' ' == '-' || s.data.headD ' ' == '+')
            then s.data.tail else s.data).dropWhile (· == '0'))
       else String.mk ((if (s.data.headD ' ' == '-' || s.data.headD ' ' == '+')
          then s.data.tail else s.data).dropWhile (· == '0'))) := rfl

/-- C5: round-tripping a valid decimal string through the constructor and
`toString` yields the sign-normalised form of the string — provided the
string is not a `'-'`-signed spelling of zero, which the code renders as
`"-0"` (see the counterexample). -/
theorem C5_roundtrip {s : String} (hne : ¬ s = "")
    (hdig : ∀ c ∈ (if (s.data.headD ' ' == '-' || s.data.headD ' ' == '+')
      then s.data.tail else s.data), c.isDigit = true)
    (hok : (s.data.headD ' ' == '-') = true →
      revVal (if (s.data.headD ' ' == '-' || s.data.headD ' ' == '+')
        then s.data.tail else s.data).reverse ≠ 0) :
    bnToString (createStr s) = specNormalize s := by
  obtain ⟨r_l, h_n, h_v, h_s, _⟩ := createStr_spec hne hdig
  rw [bnToString_limbs h_n, h_v, h_s, specNormalize_eq]
  generalize hgt : (if (s.data.headD ' ' == '-' || s.data.headD ' ' == '+')
      then s.data.tail else s.data) = t
  rw [hgt] at hdig hok
  have hrev : ∀ c ∈ t.reverse, c.isDigit = true := fun c hc => hdig c (List.mem_reverse.mp hc)
  by_cases hneg : (s.data.headD ' ' == '-') = true
  · rw [if_pos hneg, if_pos hneg, if_neg (by norm_num : ¬ ((-1 : Int) > 0)),
      if_neg (hok hneg), dec_repr t hdig]
    have hdw : ¬ (t.dropWhile (· == '0') = []) := by
      intro h
      apply hok hneg
      apply (revVal_zero_iff t.reverse hrev).mpr
      intro d hd
      have := List.dropWhile_eq_nil_iff.mp h d (List.mem_reverse.mp hd)
      simpa using this
    rw [if_neg hdw]
  · rw [if_neg hneg, if_neg hneg, if_pos (by norm_num : ((1 : Int) > 0))]
    by_cases hz : revVal t.reverse = 0
    · rw [if_pos hz]
      have hdw : t.dropWhile (· == '0') = [] := by
        apply List.dropWhile_eq_nil_iff.mpr
        intro d hd
        have := (revVal_zero_iff t.reverse hrev).mp hz d (List.mem_reverse.mpr hd)
        simp [this]
      rw [if_pos hdw]
    · rw [if_neg hz, dec_repr t hdig]
      have hdw : ¬ (t.dropWhile (· == '0') = []) := by
        intro h
        apply hz
        apply (revVal_zero_iff t.reverse hrev).mpr
        intro d hd
        have := List.dropWhile_eq_nil_iff.mp h d (List.mem_reverse.mp hd)
        simpa using this
      rw [if_neg hdw]

/-- C1 counterexample: for dividend `-7` and divisor `2` the code returns
quotient `-3` and remainder `+1` (the remainder never takes the dividend's
sign), so `quotient*divisor + remainder = -5 ≠ -7`. -/
theorem C1_cex :
    bnVal (bnDivide ⟨.limbs [7], -1, none⟩ ⟨.limbs [2], 1, none⟩) *
        bnVal ⟨.limbs [2], 1, none⟩ +
      restVal (bnDivide ⟨.limbs [7], -1, none⟩ ⟨.limbs [2], 1, none⟩).rest ≠
    bnVal ⟨.limbs [7], -1, none⟩ := by decide

/-- C1: amended division contract.  For valid operands with a nonzero
divisor the quotient is the sign product times the magnitude quotient
(truncation toward zero), and — whenever the divisor's magnitude is at
least `2`, or the dividend carries no stale remainder — the stored
remainder is the *nonnegative* value `|a| mod |b|`, regardless of the
dividend's sign; `0 ≤ r < |b|` holds but `q*b + r = a` fails for negative
dividends with nonzero remainder. -/
theorem C1_divide_contract {a b : BN} (ha : ValidBN a) (hb : ValidBN b)
    (hbz : bnIsZero b = false) :
    bnVal (bnDivide a b) =
      a.sign * b.sign * ((numbVal a.number / numbVal b.number : Nat) : Int) ∧
    ((2 ≤ numbVal b.number ∨ a.rest = none) →
      restVal (bnDivide a b).rest = ((numbVal a.number % numbVal b.number : Nat) : Int) ∧
      0 ≤ restVal (bnDivide a b).rest ∧
      restVal (bnDivide a b).rest < (numbVal b.number : Int)) := by
  obtain ⟨h1, h2, _⟩ := bnDivide_spec ha hb hbz
  refine ⟨h1, fun hp => ?_⟩
  have hr := h2 hp
  have hbpos : 0 < numbVal b.number := by
    obtain ⟨bl, hnb, _, _, _⟩ := validBN_elim hb
    rw [bnIsZero_limbs hnb] at hbz
    have : ¬ lVal bl = 0 := fun h => by rw [(isZeroL_iff bl).mpr h] at hbz; exact absurd hbz (by simp)
    rw [hnb]
    show 0 < lVal bl
    omega
  refine ⟨hr, by rw [hr]; positivity, ?_⟩
  rw [hr]
  exact_mod_cast Nat.mod_lt _ hbpos

theorem C1_witness :
    bnVal (bnDivide ⟨.limbs [7], -1, none⟩ ⟨.limbs [2], 1, none⟩) =
      (⟨.limbs [7], -1, none⟩ : BN).sign * (⟨.limbs [2], 1, none⟩ : BN).sign *
        ((numbVal (⟨.limbs [7], -1, none⟩ : BN).number /
          numbVal (⟨.limbs [2], 1, none⟩ : BN).number : Nat) : Int) ∧
    ((2 ≤ numbVal (⟨.limbs [2], 1, none⟩ : BN).number ∨
        (⟨.limbs [7], -1, none⟩ : BN).rest = none) →
      restVal (bnDivide ⟨.limbs [7], -1, none⟩ ⟨.limbs [2], 1, none⟩).rest =
        ((numbVal (⟨.limbs [7], -1, none⟩ : BN).number %
          numbVal (⟨.limbs [2], 1, none⟩ : BN).number : Nat) : Int) ∧
      0 ≤ restVal (bnDivide ⟨.limbs [7], -1, none⟩ ⟨.limbs [2], 1, none⟩).rest ∧
      restVal (bnDivide ⟨.limbs [7], -1, none⟩ ⟨.limbs [2], 1, none⟩).rest <
        (numbVal (⟨.limbs [2], 1, none⟩ : BN).number : Int)) :=
  C1_divide_contract (by decide) (by decide) (by decide)

/-- C2 counterexample: after a division by zero the value's `number` holds
the sentinel, yet `_compare` against it returns the numeric ordering `-1`
(sign equal, then `1 < 33` characters) instead of reporting the error —
errors are not sticky. -/
theorem C2_cex :
    (bnDivide (bnOfNat 5) (bnOfNat 0)).number = .err divZeroMsg ∧
    bnCompare (bnOfNat 5) (bnDivide (bnOfNat 5) (bnOfNat 0)) = -1 := by decide

/-- C2: amended error behaviour.  An error state is stored as a sentinel
string in `number` and `toString` returns it verbatim; but the error is not
sticky: `_compare` treats the sentinel as an ordinary digit array, so
comparing a numeric value (of fewer limbs than the sentinel has characters,
equal signs) against an error value yields the numeric ordering
`sign * (-1)` rather than an error report. -/
theorem C2_error_not_sticky {a : BN} {la : List Nat} {s : String} {sg : Int}
    {r : Option (Numb × Int)} (hna : a.number = .limbs la) (hsg : a.sign = sg)
    (hlen : la.length < s.length) :
    bnToString ⟨.err s, sg, r⟩ = s ∧ bnCompare a ⟨.err s, sg, r⟩ = a.sign * (-1) :=
  ⟨rfl, errString_compare hna hsg hlen⟩

theorem C2_witness :
    bnToString ⟨.err divZeroMsg, 1, none⟩ = divZeroMsg ∧
    bnCompare (bnOfNat 5) ⟨.err divZeroMsg, 1, none⟩ = (bnOfNat 5).sign * (-1) :=
  C2_error_not_sticky (show (bnOfNat 5).number = .limbs (natLimbs 5) from rfl) (by decide)
    (by decide)

/-- C3 counterexample: `power(0, 2)` yields `1`, not `0`: the loop starts
from `this.number = [1]` and every multiplication by the zero base is a
no-op on the receiver (`multiply` returns a fresh zero that is discarded);
so `power(0, 1+1) ≠ multiply(power(0,1), power(0,1)) = 0`. -/
theorem C3_cex :
    bnVal (bnPower (bnOfNat 0) 2) = 1 ∧
    bnVal (bnMultiply (bnPower (bnOfNat 0) 1) (bnPower (bnOfNat 0) 1)) = 0 := by decide

/-- C3: amended exponent laws.  `power(a,0)` is a fresh `1`, `power(a,1)`
is the receiver; for `n ≥ 2` and nonzero `a` the result's value is
`a.sign * (value a)^n` — one extra factor of the receiver's sign, because
the accumulator starts as `this` with only its `number` reset to `[1]` —
and for zero `a` the result is the receiver with `number = [1]` (value
`a.sign`, not `0`). -/
theorem C3_power_laws {a : BN} {al : List Nat} {n : Nat} (hna : a.number = .limbs al)
    (hsa : a.sign = 1 ∨ a.sign = -1) (hn : 2 ≤ n) :
    bnPower a 0 = bnOfNat 1 ∧ bnPower a 1 = a ∧
    (lVal al ≠ 0 → bnVal (bnPower a n) = a.sign * bnVal a ^ n) ∧
    (lVal al = 0 → bnPower a n = { a with number := .limbs [1] }) := by
  refine ⟨rfl, rfl, fun hnz => (bnPower_spec hna hsa hn hnz).1, fun hz => bnPower_zero hna hn hz⟩

theorem C3_witness :
    bnPower (⟨.limbs [2], -1, none⟩ : BN) 0 = bnOfNat 1 ∧
    bnPower (⟨.limbs [2], -1, none⟩ : BN) 1 = ⟨.limbs [2], -1, none⟩ ∧
    (lVal [2] ≠ 0 → bnVal (bnPower (⟨.limbs [2], -1, none⟩ : BN) 2) =
      (⟨.limbs [2], -1, none⟩ : BN).sign * bnVal ⟨.limbs [2], -1, none⟩ ^ 2) ∧
    (lVal [2] = 0 → bnPower (⟨.limbs [2], -1, none⟩ : BN) 2 =
      { (⟨.limbs [2], -1, none⟩ : BN) with number := .limbs [1] }) :=
  C3_power_laws (by decide) (by decide) (by decide)

/-- C4 counterexample: dividing `-1` by `2` gives a zero quotient that keeps
the product sign `-1`, and `toString` prefixes `-` for any non-positive
sign, so the result renders as `"-0"`. -/
theorem C4_cex :
    bnToString (bnDivide ⟨.limbs [1], -1, none⟩ ⟨.limbs [2], 1, none⟩) = "-0" := by decide

/-- C4: amended sign/rendering invariant.  The decimal rendering prefixes
`-` exactly when `sign > 0` fails, independent of the magnitude: a
zero-magnitude value with `sign = -1` (producible by `divide`, or by the
constructor on `"-0"`) is rendered `"-0"`. -/
theorem C4_sign_rendering {v : BN} {l : List Nat} (hn : v.number = .limbs l) :
    bnToString v = (if v.sign > 0 then (if lVal l = 0 then "0" else decStr (lVal l))
      else "-" ++ (if lVal l = 0 then "0" else decStr (lVal l))) :=
  bnToString_limbs hn

theorem C4_witness :
    bnToString (⟨.limbs [0], -1, none⟩ : BN) =
      (if (⟨.limbs [0], -1, none⟩ : BN).sign > 0
        then (if lVal [0] = 0 then "0" else decStr (lVal [0]))
        else "-" ++ (if lVal [0] = 0 then "0" else decStr (lVal [0]))) :=
  C4_sign_rendering (by decide)

/-- C5 counterexample: `"-0"` is a valid decimal string (optional sign,
digits only), but the constructor records `sign = -1` before the digits are
seen, and `toString` renders the zero magnitude with the `-` prefix:
`toString(create("-0")) = "-0"` while the normalised form is `"0"`. -/
theorem C5_cex :
    bnToString (createStr "-0") = "-0" ∧ specNormalize "-0" = "0" := by decide

theorem C5_witness :
    bnToString (createStr "-017") = specNormalize "-017" :=
  C5_roundtrip (by decide) (by decide) (by decide)

/-- C6 counterexample: after `divide(7, 2)` the quotient `3` carries
`rest = 1`; dividing that value by `1` takes the skip-by-one early return,
which leaves the stale `rest = 1` in place, so `mod(•, 1)` reports `1`
although `3 mod 1 = 0`. -/
theorem C6_cex :
    restVal (bnMod (bnDivide (bnOfNat 7) (bnOfNat 2)) (bnOfNat 1)) = 1 ∧
    numbVal (bnDivide (bnOfNat 7) (bnOfNat 2)).number %
      numbVal (bnOfNat 1).number = 0 := by decide

/-- C6: amended remainder lifetime.  `mod` literally reports the `rest`
field of the division's result; a division by a divisor of magnitude at
least `2` overwrites that field with `|a| mod |b|`, but a division by a
divisor of magnitude `1` returns early (`// Skip division by 1`) and leaves
whatever `rest` the dividend already carried. -/
theorem C6_rest_lifetime {a b : BN} (ha : ValidBN a) (hb : ValidBN b)
    (hbz : bnIsZero b = false) :
    bnMod a b = (bnDivide a b).rest ∧
    (2 ≤ numbVal b.number →
      restVal (bnDivide a b).rest = ((numbVal a.number % numbVal b.number : Nat) : Int)) ∧
    (numbVal b.number = 1 → bnIsZero a = false → (bnDivide a b).rest = a.rest) := by
  refine ⟨rfl, fun h2 => (bnDivide_spec ha hb hbz).2.1 (Or.inl h2), fun h1 haz => ?_⟩
  obtain ⟨bl, hnb, hlb, hcb, _⟩ := validBN_elim hb
  have hv1 : lVal bl = 1 := by rw [hnb] at h1; exact h1
  rw [divide_by_one_rest hbz haz hnb hlb hcb hv1]

theorem C6_witness :
    bnMod (bnDivide (bnOfNat 7) (bnOfNat 2)) (bnOfNat 1) =
      (bnDivide (bnDivide (bnOfNat 7) (bnOfNat 2)) (bnOfNat 1)).rest ∧
    (2 ≤ numbVal (bnOfNat 1).number →
      restVal (bnDivide (bnDivide (bnOfNat 7) (bnOfNat 2)) (bnOfNat 1)).rest =
        ((numbVal (bnDivide (bnOfNat 7) (bnOfNat 2)).number %
          numbVal (bnOfNat 1).number : Nat) : Int)) ∧
    (numbVal (bnOfNat 1).number = 1 →
      bnIsZero (bnDivide (bnOfNat 7) (bnOfNat 2)) = false →
      (bnDivide (bnDivide (bnOfNat 7) (bnOfNat 2)) (bnOfNat 1)).rest =
        (bnDivide (bnOfNat 7) (bnOfNat 2)).rest) :=
  C6_rest_lifetime (by decide) (by decide) (by decide)

/-- C7 counterexample: the largest power of two whose square stays within
`2^53` (the largest exactly-representable double magnitude) is `2^26`
(`(2^26)^2 = 2^52 ≤ 2^53 < (2^27)^2`), but the engine's base is `2^25`. -/
theorem C7_cex : largestPow2Sq maxExactNative ≠ base := by
  rw [largestPow2Sq_max, base_eq]
  norm_num

/-- C7: amended base choice.  The base is the fixed constant `2^25`; its
square does fit the exactly-representable range (`base^2 = 2^50 ≤ 2^53`),
but it is one factor of two short of the *largest* such power of two,
which is `2^26 = 2 * base`. -/
theorem C7_base_constant :
    base = 2 ^ 25 ∧ base * base ≤ maxExactNative ∧
    largestPow2Sq maxExactNative = 2 * base := by
  refine ⟨rfl, ?_, ?_⟩
  · rw [base_eq, maxExactNative_eq]
    norm_num
  · rw [largestPow2Sq_max, base_eq]
    norm_num

set_option maxRecDepth 20000 in
/-- C8 counterexample: the divisor `1` fits a single limb, yet `divide`
takes the skip-by-one early return, not the native fast path: no remainder
is written (`rest` stays `none`), whereas the generic factor path on the
same inputs produces the remainder `0`. -/
theorem C8_cex :
    (bnDivide (bnOfNat 7) (bnOfNat 1)).rest = none ∧
    (genLoop ⟨.limbs [1], 1, none⟩ [7] bnZero).2.number = .limbs [0] := by decide

/-- C8: amended fast-path refinement.  For every valid dividend and every
canonical single-limb divisor of magnitude at least `2` (so excluding the
skip-by-one divisors): a dividend of nonzero magnitude takes the
native-arithmetic path, a zero dividend takes the zero-dividend early
return (a fresh `BigNumber(0)`, no remainder written), and in either case
the native loop agrees with the generic factor-decomposition loop run on
the same inputs: the trimmed quotient limb arrays are equal and the
generic remainder equals the native remainder. -/
theorem C8_fast_path {a b : BN} {al bl : List Nat}
    (hna : a.number = .limbs al) (hla : Limbs al) (hca : Canon al)
    (hnb : b.number = .limbs bl) (hlb : Limbs bl) (hcb : Canon bl)
    (hlen : bl.length = 1) (hd2 : 2 ≤ lVal bl) :
    (bnIsZero a = false →
      bnDivide a b =
        ⟨.limbs (trimEnd (nativeLoop (bl.headD 0) al.reverse 0).1.reverse), a.sign * b.sign,
          some (.limbs (natLimbs (nativeLoop (bl.headD 0) al.reverse 0).2), 1)⟩) ∧
    (bnIsZero a = true → bnDivide a b = bnZero) ∧
    trimEnd (nativeLoop (bl.headD 0) al.reverse 0).1.reverse =
      trimEnd (genLoop ⟨.limbs bl, 1, b.rest⟩ al.reverse bnZero).1.reverse ∧
    (genLoop ⟨.limbs bl, 1, b.rest⟩ al.reverse bnZero).2.number =
      .limbs (natLimbs (nativeLoop (bl.headD 0) al.reverse 0).2) ∧
    (genLoop ⟨.limbs bl, 1, b.rest⟩ al.reverse bnZero).2.sign = 1 := by
  have hbz : bnIsZero b = false := by
    rw [bnIsZero_limbs hnb]
    cases h : isZeroL bl
    · rfl
    · have := (isZeroL_iff bl).mp h
      omega
  have hd1 : bl.headD 0 ≠ 1 := by
    intro hc
    have : lVal bl = 1 := by
      rw [length_one_eq hlen, hc]
      simp [lVal_cons, lVal_nil]
    omega
  obtain ⟨hquot, hrest, hsign⟩ := native_generic_loops b.rest hla hca hlb hcb hlen hd2
  exact ⟨fun haz => bnDivide_native hbz haz hna hnb hlen hd1,
    fun haz => bnDivide_zero hbz haz, hquot, hrest, hsign⟩

theorem C8_witness :
    ((bnIsZero (⟨.limbs [7], 1, none⟩ : BN) = false →
      bnDivide (⟨.limbs [7], 1, none⟩ : BN) ⟨.limbs [3], 1, none⟩ =
        ⟨.limbs (trimEnd (nativeLoop (([3] : List Nat).headD 0)
            ([7] : List Nat).reverse 0).1.reverse),
          (⟨.limbs [7], 1, none⟩ : BN).sign * (⟨.limbs [3], 1, none⟩ : BN).sign,
          some (.limbs (natLimbs (nativeLoop (([3] : List Nat).headD 0)
            ([7] : List Nat).reverse 0).2), 1)⟩) ∧
      trimEnd (nativeLoop (([3] : List Nat).headD 0) ([7] : List Nat).reverse 0).1.reverse =
        trimEnd (genLoop ⟨.limbs [3], 1, (⟨.limbs [3], 1, none⟩ : BN).rest⟩
          ([7] : List Nat).reverse bnZero).1.reverse ∧
      (genLoop ⟨.limbs [3], 1, (⟨.limbs [3], 1, none⟩ : BN).rest⟩
          ([7] : List Nat).reverse bnZero).2.number =
        .limbs (natLimbs (nativeLoop (([3] : List Nat).headD 0)
          ([7] : List Nat).reverse 0).2) ∧
      (genLoop ⟨.limbs [3], 1, (⟨.limbs [3], 1, none⟩ : BN).rest⟩
          ([7] : List Nat).reverse bnZero).2.sign = 1) ∧
    (bnIsZero (⟨.limbs [0], 1, none⟩ : BN) = true →
      bnDivide (⟨.limbs [0], 1, none⟩ : BN) ⟨.limbs [3], 1, none⟩ = bnZero) := by
  obtain ⟨h1, _, h3, h4, h5⟩ :=
    C8_fast_path (show (⟨.limbs [7], 1, none⟩ : BN).number = .limbs [7] from rfl) (by decide)
      (by decide) (show (⟨.limbs [3], 1, none⟩ : BN).number = .limbs [3] from rfl) (by decide)
      (by decide) (by decide) (by decide)
  obtain ⟨_, h2, _, _, _⟩ :=
    C8_fast_path (show (⟨.limbs [0], 1, none⟩ : BN).number = .limbs [0] from rfl) (by decide)
      (by decide) (show (⟨.limbs [3], 1, none⟩ : BN).number = .limbs [3] from rfl) (by decide)
      (by decide) (by decide) (by decide)
  exact ⟨⟨h1, h3, h4, h5⟩, h2⟩

/-- C9 counterexample: constructing from the array `['+', 1]` removes the
caller's sign token (`initialNumber.shift(0)`): the array observed after
construction is `[1]`, not the original input. -/
theorem C9_cex :
    (createArr [AElem.plusTok, AElem.num 1]).2 ≠ [AElem.plusTok, AElem.num 1] := by decide

/-- C9: amended construction frame.  The constructor mutates an array input
with a leading sign token, shifting the token off the caller's array; only
arrays with no leading `"+"`/`"-"` token come back unchanged. -/
theorem C9_constructor_mutation (arr rest : List AElem) :
    (createArr (.minusTok :: rest)).2 = rest ∧
    (createArr (.plusTok :: rest)).2 = rest ∧
    (arr.headD .junk ≠ .plusTok → arr.headD .junk ≠ .minusTok → (createArr arr).2 = arr) := by
  refine ⟨rfl, rfl, fun hp hm => ?_⟩
  cases arr with
  | nil => rfl
  | cons e es =>
    cases e with
    | plusTok => exact absurd rfl hp
    | minusTok => exact absurd rfl hm
    | num n => rfl
    | junk => rfl

theorem C9_witness :
    (createArr (.minusTok :: [AElem.num 1])).2 = [AElem.num 1] ∧
    (createArr (.plusTok :: [AElem.num 1])).2 = [AElem.num 1] ∧
    (createArr [AElem.num 2]).2 = [AElem.num 2] := by
  obtain ⟨h1, h2, h3⟩ := C9_constructor_mutation [AElem.num 2] [AElem.num 1]
  exact ⟨h1, h2, h3 (by decide) (by decide)⟩

/-- C10: with no argument, `power` hits
`if (typeof number === 'undefined') return;` and returns `undefined`, while
`add`, `subtract`, `multiply` and `divide` each return the receiver
unchanged (and `_compare` returns `0`). -/
theorem C10_undefined_argument (a : BN) :
    bnPowerArg a none = none ∧ bnAddArg a none = some a ∧ bnSubtractArg a none = some a ∧
    bnMultiplyArg a none = some a ∧ bnDivideArg a none = some a ∧ bnCompareArg a none = 0 :=
  ⟨rfl, rfl, rfl, rfl, rfl, rfl⟩

end BigNum
